import Mathlib

/-!
Verification of the gfx-labs/ssz SimpleSerialize library.

This file gives a shallow embedding, in Lean 4, of the parts of the Go
source that the verified properties talk about:

* `merkle_tree/hasher.go` : `GetDepth`, `NextPowerOfTwo`, `PowerOf2`, `IsPowerOf2`
* `flexssz/decoder.go`    : the `Decoder` cursor type, `Read`, `ReadN`,
  scalar readers and `DecodeContainer`
* `flexssz/encoder.go`    : the `word` / `Builder` stack-and-heap encoder
* bitlist/bitvector codecs (`EncodeBitList`, `DecodeBitList`, ...)
* `flexssz/struct_encode.go` / `struct_decode.go` : the reflective
  marshaller, embedded over an inductive universe of SSZ types and values
* `flexssz/struct_merkle.go`, `merkle_tree/merkle_root.go`,
  `merkle_tree/primatives.go` : the hash-tree-root engine (SHA-256 is
  embedded concretely, since the Go code treats `crypto/sha256` as a
  black-box primitive)
* `merkle_tree/bufpool` : the size-classed buffer pool

Bytes are modelled as `List Nat` with every element `< 256`; machine
integers are `Nat` with explicit `% 2 ^ w` at the points where the Go
code converts or overflows.  Go functions that return `error` become
`Except String`; Go panics become `Option` results (`none` = panic).
Loops whose iteration count is bounded by a machine-integer width are
written with that width as structural fuel, so every definition is
executable by the kernel.
-/

namespace SSZGo

/-- Byte strings: lists of byte values (each `< 256`). -/
abbrev Bytes := List Nat

/-- All elements are genuine bytes. -/
def isBytes (bs : Bytes) : Prop := ∀ b ∈ bs, b < 256

instance (bs : Bytes) : Decidable (isBytes bs) := by
  unfold isBytes; infer_instance

/-- `binary.LittleEndian.PutUint16`: the 2 little-endian bytes of `x % 2^16`. -/
def le16Bytes (x : Nat) : Bytes := [x % 256, x / 256 % 256]

/-- `binary.LittleEndian.PutUint32`: the 4 little-endian bytes of `x % 2^32`. -/
def le32Bytes (x : Nat) : Bytes :=
  [x % 256, x / 256 % 256, x / 2 ^ 16 % 256, x / 2 ^ 24 % 256]

/-- `binary.LittleEndian.PutUint64`: the 8 little-endian bytes of `x % 2^64`. -/
def le64Bytes (x : Nat) : Bytes :=
  [x % 256, x / 2 ^ 8 % 256, x / 2 ^ 16 % 256, x / 2 ^ 24 % 256,
   x / 2 ^ 32 % 256, x / 2 ^ 40 % 256, x / 2 ^ 48 % 256, x / 2 ^ 56 % 256]

/-- Little-endian value of a byte string (`binary.LittleEndian.UintNN`). -/
def leNum : Bytes → Nat
  | [] => 0
  | b :: rest => b + 256 * leNum rest

/-! ## merkle_tree/hasher.go -/

/--
The loop of `GetDepth` (`for v > 1 { v >>= 1; depth++ }`).  The argument
is a `uint64`, so the loop body runs at most 64 times; that width is the
structural fuel.
-/
def getDepthAux : Nat → Nat → Nat
  | 0, _ => 0
  | fuel + 1, v => if 1 < v then getDepthAux fuel (v / 2) + 1 else 0

/--
`GetDepth` from `merkle_tree/hasher.go`:
returns 0 when `v ≤ 1`, otherwise halves `v` until it reaches 1,
counting the iterations.
-/
def getDepth (v : Nat) : Nat :=
  if v ≤ 1 then 0 else getDepthAux 64 v

/-- `IsPowerOf2` from `merkle_tree/hasher.go` (`n != 0 && n & (n-1) == 0`). -/
def isPowerOf2 (n : Nat) : Bool :=
  n != 0 && n &&& (n - 1) == 0

/-- `Decoder`: a byte buffer plus a cursor (`xs`, `cur`). -/
structure Decoder where
  xs : Bytes
  cur : Nat
deriving Repr, DecidableEq

/-- `NewDecoder`. -/
def newDecoder (xs : Bytes) : Decoder := ⟨xs, 0⟩

/-- `Decoder.Remaining`: the bytes after the cursor. -/
def Decoder.remaining (d : Decoder) : Bytes := d.xs.drop d.cur

/--
`Decoder.Read` of a destination buffer of length `n`
(`flexssz/decoder.go` lines 63-73).  At end-of-buffer it returns
`io.EOF`; if fewer than `n` bytes remain it returns the wrapped
`io.ErrUnexpectedEOF` without advancing; otherwise it yields `n` bytes
and advances the cursor by `n`.
-/
def Decoder.read (d : Decoder) (n : Nat) : Except String (Bytes × Decoder) :=
  if d.cur = d.xs.length then .error "EOF"
  else if d.xs.length - d.cur < n then .error "ssz: unexpected EOF"
  else .ok ((d.xs.drop d.cur).take n, ⟨d.xs, d.cur + n⟩)

/-- `Decoder.ReadN`: allocate `n` bytes and `Read` into them. -/
def Decoder.readN (d : Decoder) (n : Nat) : Except String (Bytes × Decoder) :=
  d.read n

/-- `Decoder.ReadUint32` (little-endian, 4 bytes). -/
def Decoder.readUint32 (d : Decoder) : Except String (Nat × Decoder) := do
  let (bs, d1) ← d.read 4
  pure (leNum bs, d1)

/-- `Decoder.ReadOffset`: a `uint32` read and widened to `int`. -/
def Decoder.readOffset (d : Decoder) : Except String (Nat × Decoder) :=
  d.readUint32

/-- `Decoder.ReadAll`: read all remaining bytes, advancing to the end. -/
def Decoder.readAll (d : Decoder) : Except String (Bytes × Decoder) :=
  if (d.remaining).length = 0 then .ok ([], d)
  else d.read (d.remaining).length

/-- `Decoder.ReadUint8`. -/
def Decoder.readUint8 (d : Decoder) : Except String (Nat × Decoder) := do
  let (bs, d1) ← d.read 1
  pure (leNum bs, d1)

/-- `Decoder.ReadUint16`. -/
def Decoder.readUint16 (d : Decoder) : Except String (Nat × Decoder) := do
  let (bs, d1) ← d.read 2
  pure (leNum bs, d1)

/-- `Decoder.ReadUint64`. -/
def Decoder.readUint64 (d : Decoder) : Except String (Nat × Decoder) := do
  let (bs, d1) ← d.read 8
  pure (leNum bs, d1)

/--
`Decoder.ScanBool` / `ReadBool`: reads one byte; the result is `true`
exactly when that byte equals 1.
-/
def Decoder.readBool (d : Decoder) : Except String (Bool × Decoder) := do
  let (bs, d1) ← d.read 1
  pure (bs.headD 0 == 1, d1)

/-! ## flexssz/decoder.go : DecodeContainer -/

/--
`ContainerElement` (`flexssz/decoder.go`): a container field is decoded
either by a fixed-size function run on the parent decoder, or by a
variable-size function run on a sub-decoder after the offset table is
read.  A fixed function advances the parent decoder; a variable
function's sub-decoder is discarded, so only success or failure remains.
-/
inductive ContainerElement where
  | fixedE (fn : Decoder → Except String Decoder)
  | variableE (fn : Decoder → Except String Unit)

/--
First pass of `Decoder.DecodeContainer`: fixed fields are decoded
immediately against the parent decoder; for each variable field a 4-byte
little-endian offset is read and recorded alongside its decode function.
-/
def dcFirstPass (d : Decoder) :
    List ContainerElement →
    Except String (Decoder × List (Nat × (Decoder → Except String Unit)))
  | [] => .ok (d, [])
  | .fixedE fn :: rest => do
    let d1 ← fn d
    dcFirstPass d1 rest
  | .variableE fn :: rest => do
    let (offset, d1) ← d.readOffset
    let (d2, pairs) ← dcFirstPass d1 rest
    pure (d2, (offset, fn) :: pairs)

/--
Second pass of `Decoder.DecodeContainer`: for each recorded variable
field, the end of its slice is the next field's offset (or the buffer
length for the last field); the bounds `start ≤ end ≤ len` are checked
for that field only when its turn comes, and a violation produces the
"invalid offset" error.
-/
def dcSecondPass (xs : Bytes) :
    List (Nat × (Decoder → Except String Unit)) → Except String Unit
  | [] => .ok ()
  | (start, fn) :: rest => do
    let endPos := match rest with
      | [] => xs.length
      | (next, _) :: _ => next
    if start > xs.length ∨ endPos > xs.length ∨ start > endPos then
      .error "invalid offset"
    else do
      fn (newDecoder ((xs.take endPos).drop start))
      dcSecondPass xs rest

/--
`Decoder.DecodeContainer` (`flexssz/decoder.go` lines 183-227): the
two-pass container decode.  Note that the offsets are never compared
with the fixed part size, and bounds violations surface only during the
second pass, interleaved with the variable decoding itself.
-/
def decodeContainer (d : Decoder) (elems : List ContainerElement) :
    Except String Decoder := do
  let (d1, pairs) ← dcFirstPass d elems
  dcSecondPass d1.xs pairs
  pure d1

/-! ## Bitlist and bitvector codec (flexssz, EncodeBitList and friends) -/

/-- Trim a byte string to its last non-zero byte (nothing if all-zero). -/
def dropTrailingZeros (bs : Bytes) : Bytes :=
  (bs.reverse.dropWhile (· == 0)).reverse

/--
The delimiter search of `EncodeBitList`
(`for delimiterBit > lastByte { delimiterBit >>= 1 }`).
`delim` is a `uint8` starting at `0x80`, so 8 halvings exhaust it;
that width is the structural fuel.
-/
def delimLoop : Nat → Nat → Nat → Nat
  | 0, delim, _ => delim
  | fuel + 1, delim, lastByte =>
    if lastByte < delim then delimLoop fuel (delim / 2) lastByte else delim

/--
`EncodeBitList` (SSZ bitlist encoding): trims the input to its highest
non-zero byte and sets a delimiter bit one position above the highest
set bit, appending a fresh `0x01` byte when the delimiter would
overflow the last byte.
-/
def encodeBitList (bits : Bytes) (maxBits : Nat) : Except String Bytes :=
  if bits.length = 0 then .ok [1]
  else if 0 < maxBits ∧ maxBits < bits.length * 8 then
    .error "bitlist length exceeds maximum bits"
  else
    let result := dropTrailingZeros bits
    if result.length = 0 then .ok [1]
    else
      let lastByte := result.getLastD 0
      let delim := delimLoop 8 128 lastByte
      let shifted := delim * 2 % 256
      if shifted = 0 then .ok (result ++ [1])
      else .ok (result.dropLast ++ [lastByte ||| shifted])

/--
The delimiter search of `DecodeBitList`
(`for lastByte & delimiterBit == 0 { delimiterBit >>= 1; delimiterPos-- }`),
returning the delimiter bit and its position; fuel is the `uint8` width.
-/
def msbLoop : Nat → Nat → Nat → Nat → Nat × Nat
  | 0, delim, pos, _ => (delim, pos)
  | fuel + 1, delim, pos, lastByte =>
    if lastByte &&& delim = 0 then msbLoop fuel (delim / 2) (pos - 1) lastByte
    else (delim, pos)

/--
`DecodeBitList`: locates the delimiter bit in the last byte, computes
the bit count, clears the delimiter and trims trailing zero bytes;
returns the payload bytes and the number of bits.
-/
def decodeBitList (data : Bytes) (maxBits : Nat) : Except String (Bytes × Nat) :=
  if data.length = 0 then .error "empty data for bitlist"
  else if data = [1] then .ok ([], 0)
  else
    let lastByte := data.getLastD 0
    if lastByte = 0 then .error "bitlist missing delimiter bit"
    else
      let delimAndPos := msbLoop 8 128 7 lastByte
      let delimBit := delimAndPos.1
      let delimPos := delimAndPos.2
      let numBits := (data.length - 1) * 8 + delimPos
      if 0 < maxBits ∧ maxBits < numBits then
        .error "bitlist has too many bits"
      else
        .ok (dropTrailingZeros (data.dropLast ++ [lastByte &&& (255 ^^^ delimBit)]),
             numBits)

/--
`EncodeBitVector`: requires exactly `⌈size/8⌉` bytes and clears the
bits of the last byte above `size mod 8`.
-/
def encodeBitVector (bits : Bytes) (size : Nat) : Except String Bytes :=
  let expectedBytes := (size + 7) / 8
  if bits.length ≠ expectedBytes then .error "bitvector requires exact byte count"
  else
    let extraBits := size % 8
    if extraBits = 0 then .ok bits
    else .ok (bits.dropLast ++ [bits.getLastD 0 &&& (2 ^ extraBits - 1)])

/--
`DecodeBitVector`: requires exactly `⌈size/8⌉` bytes and rejects input
with bits set above `size mod 8` in the last byte.
-/
def decodeBitVector (data : Bytes) (size : Nat) : Except String Bytes :=
  let expectedBytes := (size + 7) / 8
  if data.length ≠ expectedBytes then .error "bitvector requires exact byte count"
  else
    let extraBits := size % 8
    if extraBits ≠ 0 ∧ data.getLastD 0 &&& (255 ^^^ (2 ^ extraBits - 1)) ≠ 0 then
      .error "bitvector has invalid bits set beyond size"
    else .ok data

/-! ## flexssz/encoder.go : word and Builder -/

/--
`word` (`flexssz/encoder.go`): either inline data (`pointer = -1`, with
the data-producing function) or a heap pointer (`pointer ≥ 0`).  The
data-producing functions of the encoder always write fixed byte
strings, embedded here as those strings.
-/
inductive Word where
  | inline (bs : Bytes)
  | ptr (p : Nat)
deriving Repr, DecidableEq

/--
`word.EncodeTo` (`flexssz/encoder.go` lines 29-34): inline data is
written as-is; a pointer is written as the 4-byte little-endian
`uint32(plus + pointer)` — the Go conversion truncates modulo `2^32`
with no overflow check.
-/
def wordEncodeTo (plus : Nat) : Word → Bytes
  | .inline bs => bs
  | .ptr p => le32Bytes (plus + p)

/--
`Builder` (`flexssz/encoder.go`): an optional parent (for nested
variable contexts), the stack of words, the `uint32` stack cursor
`cur`, the heap size `hz` and the accumulated heap bytes (the
composition of the heap's encode functions).
-/
inductive Builder where
  | mk (parent : Option Builder) (stack : List Word) (cur : Nat) (hz : Nat)
      (heap : Bytes)

def Builder.parent : Builder → Option Builder
  | .mk p _ _ _ _ => p

def Builder.stack : Builder → List Word
  | .mk _ s _ _ _ => s

def Builder.cur : Builder → Nat
  | .mk _ _ c _ _ => c

def Builder.hz : Builder → Nat
  | .mk _ _ _ h _ => h

def Builder.heap : Builder → Bytes
  | .mk _ _ _ _ hp => hp

/-- `NewBuilder`. -/
def newBuilder : Builder := .mk none [] 0 0 []

/--
`Builder.Write`: push the bytes as an inline word and advance the
`uint32` cursor by their length (modulo `2^32`, as in Go).
-/
def Builder.write : Builder → Bytes → Builder
  | .mk p s c h hp, xs => .mk p (s ++ [.inline xs]) ((c + xs.length) % 2 ^ 32) h hp

/--
`Builder.appendHeap`: record a pointer word at the current heap size,
advance the cursor by the 4 pointer bytes, grow the heap size by `sz`
and append the payload to the heap.
-/
def Builder.appendHeap : Builder → Nat → Bytes → Builder
  | .mk p s c h hp, sz, payload =>
    .mk p (s ++ [.ptr h]) ((c + 4) % 2 ^ 32) (h + sz) (hp ++ payload)

/-- `Builder.EncodeBytes`: heap payload of the bytes themselves. -/
def Builder.encodeBytesB (b : Builder) (xs : Bytes) : Builder :=
  b.appendHeap xs.length xs

/-- `Builder.EnterDynamic`: a fresh child builder whose parent is `b`. -/
def Builder.enterDynamic (b : Builder) : Builder :=
  .mk (some b) [] 0 0 []

/--
`Builder.Finish` seen as the byte string it writes: each stack word is
encoded with `plus = cur`, then the heap follows.
-/
def Builder.finishBytes (b : Builder) : Bytes :=
  (b.stack.map (wordEncodeTo b.cur)).flatten ++ b.heap

/--
`Builder.ExitDynamic` (`flexssz/encoder.go` lines 105-125): panics
(modelled as `none`) when there is no parent; otherwise appends the
child's serialized form (size `hz + cur`) to the parent's heap and
returns the parent.
-/
def Builder.exitDynamic (b : Builder) : Option Builder :=
  match b.parent with
  | none => none
  | some p => some (p.appendHeap (b.hz + b.cur) b.finishBytes)

/-- `Builder.EncodeBool` (0x00 / 0x01). -/
def Builder.encodeBool (b : Builder) (x : Bool) : Builder :=
  b.write [if x then 1 else 0]

/-- `Builder.EncodeUint8`. -/
def Builder.encodeUint8 (b : Builder) (x : Nat) : Builder :=
  b.write [x % 256]

/-- `Builder.EncodeUint16`. -/
def Builder.encodeUint16 (b : Builder) (x : Nat) : Builder :=
  b.write (le16Bytes x)

/-- `Builder.EncodeUint32`. -/
def Builder.encodeUint32 (b : Builder) (x : Nat) : Builder :=
  b.write (le32Bytes x)

/-- `Builder.EncodeUint64`. -/
def Builder.encodeUint64 (b : Builder) (x : Nat) : Builder :=
  b.write (le64Bytes x)

/-- `Builder.EncodeFixed`. -/
def Builder.encodeFixed (b : Builder) (xs : Bytes) : Builder :=
  b.write xs

/-! ## merkle_tree/bufpool : the buffer pool -/

/--
`bits.Len` on a `uint` (64-bit): the number of bits needed to represent
`n`; the word width is the structural fuel.
-/
def bitsLenAux : Nat → Nat → Nat
  | 0, _ => 0
  | fuel + 1, n => if n = 0 then 0 else bitsLenAux fuel (n / 2) + 1

def bitsLen (n : Nat) : Nat := bitsLenAux 64 n

/-- `nextPowerOf2Index`: the index of the smallest power of two `≥ n`. -/
def nextPowerOf2Index (n : Nat) : Nat :=
  if n ≤ 1 then 0 else bitsLen (n - 1)

/--
`bits.TrailingZeros` of a positive number (only called on exact powers
of two in `powerOf2Index`); fuel is the 64-bit word width.
-/
def trailingZerosAux : Nat → Nat → Nat
  | 0, _ => 0
  | fuel + 1, n => if n % 2 = 1 then 0 else trailingZerosAux fuel (n / 2) + 1

/--
`powerOf2Index`: `some index` when `n = 2^index` exactly, otherwise
`none` (Go returns `-1`).
-/
def powerOf2Index (n : Nat) : Option Nat :=
  if n = 0 ∨ n &&& (n - 1) ≠ 0 then none
  else some (trailingZerosAux 64 n)

/--
`Buf`: a Go slice seen as its full backing array (`dat`, whose length
is the capacity) plus the visible length `len`.
-/
structure Buf where
  len : Nat
  dat : Bytes
deriving Repr, DecidableEq

/--
`BufferPool`: 32 size classes of pooled buffers.  `sync.Pool` is
modelled as a list per class; `Get` on an empty class falls back to the
pool's `New` function exactly as the Go runtime does.
-/
structure BufferPool where
  pools : Nat → List Buf

/-- `NewBufferPool`: all classes empty. -/
def newBufferPool : BufferPool := ⟨fun _ => []⟩

/--
`BufferPool.Get` (size `≥ 0`; the Go `size < 0` nil return is
unrepresentable for a `Nat` argument).  `size = 0` yields a fresh empty
buffer (capacity 0); an index beyond the 32 classes is allocated
directly with capacity `size`; otherwise the class either supplies a
pooled buffer or `New` makes a zeroed buffer of capacity `2^index`, and
its visible length is set to `size`.
-/
def BufferPool.get (p : BufferPool) (size : Nat) : Buf × BufferPool :=
  if size = 0 then (⟨0, []⟩, p)
  else
    let index := nextPowerOf2Index size
    if 32 ≤ index then (⟨size, List.replicate size 0⟩, p)
    else
      match p.pools index with
      | [] => (⟨size, List.replicate (2 ^ index) 0⟩, p)
      | b :: rest =>
        (⟨size, b.dat⟩,
         ⟨fun i => if i = index then rest else p.pools i⟩)

/--
`BufferPool.Put`: rejects buffers whose capacity is 0, not an exact
power of two, or beyond the 32 classes; otherwise zeroes the full
capacity, resets the length to the capacity and returns the buffer to
its class.
-/
def BufferPool.put (p : BufferPool) (b : Buf) : BufferPool :=
  let capacity := b.dat.length
  if capacity = 0 then p
  else
    match powerOf2Index capacity with
    | none => p
    | some index =>
      if 32 ≤ index then p
      else if capacity ≠ 2 ^ index then p
      else
        ⟨fun i => if i = index then
            ⟨capacity, List.replicate capacity 0⟩ :: p.pools i
          else p.pools i⟩

/-- Pool well-formedness: every pooled buffer in class `i` is a zeroed
block of capacity exactly `2^i` (this is what `Put` maintains). -/
def poolWF (p : BufferPool) : Prop :=
  ∀ i, ∀ b ∈ p.pools i, b.dat = List.replicate (2 ^ i) 0

/-! ## SHA-256

`merkle_tree/hasher.go` wraps `crypto/sha256`, which the specification
treats as a black-box primitive producing 32 bytes.  The primitive is
embedded concretely (FIPS 180-4) so that hash values can be computed.
-/

/-- Addition on 32-bit words. -/
def add32 (a b : Nat) : Nat := (a + b) % 2 ^ 32

/-- Right rotation of a 32-bit word. -/
def rotr32 (n x : Nat) : Nat :=
  ((x >>> n) ||| (x <<< (32 - n))) % 2 ^ 32

/-- Big-endian value of a byte string. -/
def beNum (bs : Bytes) : Nat := bs.foldl (fun acc b => acc * 256 + b) 0

/-- The 4 big-endian bytes of a 32-bit word. -/
def be32Bytes (x : Nat) : Bytes :=
  [x / 2 ^ 24 % 256, x / 2 ^ 16 % 256, x / 2 ^ 8 % 256, x % 256]

/-- The 8 big-endian bytes of a 64-bit word. -/
def be64Bytes (x : Nat) : Bytes :=
  [x / 2 ^ 56 % 256, x / 2 ^ 48 % 256, x / 2 ^ 40 % 256, x / 2 ^ 32 % 256,
   x / 2 ^ 24 % 256, x / 2 ^ 16 % 256, x / 2 ^ 8 % 256, x % 256]

/-- The SHA-256 round constants. -/
def sha256K : List Nat :=
  [1116352408, 1899447441, 3049323471, 3921009573, 961987163, 1508970993,
   2453635748, 2870763221, 3624381080, 310598401, 607225278, 1426881987,
   1925078388, 2162078206, 2614888103, 3248222580, 3835390401, 4022224774,
   264347078, 604807628, 770255983, 1249150122, 1555081692, 1996064986,
   2554220882, 2821834349, 2952996808, 3210313671, 3336571891, 3584528711,
   113926993, 338241895, 666307205, 773529912, 1294757372, 1396182291,
   1695183700, 1986661051, 2177026350, 2456956037, 2730485921, 2820302411,
   3259730800, 3345764771, 3516065817, 3600352804, 4094571909, 275423344,
   430227734, 506948616, 659060556, 883997877, 958139571, 1322822218,
   1537002063, 1747873779, 1955562222, 2024104815, 2227730452, 2361852424,
   2428436474, 2756734187, 3204031479, 3329325298]

/-- The SHA-256 initial hash state. -/
def sha256H0 : List Nat :=
  [1779033703, 3144134277, 1013904242, 2773480762, 1359893119, 2600822924,
   528734635, 1541459225]

/-- SHA-256 padding: `0x80`, zeros to 56 mod 64, the bit length big-endian. -/
def sha256Pad (msg : Bytes) : Bytes :=
  msg ++ [0x80] ++ List.replicate ((119 - msg.length % 64) % 64) 0
      ++ be64Bytes (8 * msg.length)

/-- Split a byte string into 64-byte blocks (`fuel` bounds the count). -/
def chunk64 : Nat → Bytes → List Bytes
  | 0, _ => []
  | _, [] => []
  | fuel + 1, bs => bs.take 64 :: chunk64 fuel (bs.drop 64)

/-- One step of the SHA-256 message-schedule extension. -/
def schedStep (w : List Nat) : List Nat :=
  let n := w.length
  let w15 := w.getD (n - 15) 0
  let w2 := w.getD (n - 2) 0
  let s0 := (rotr32 7 w15).xor ((rotr32 18 w15).xor (w15 >>> 3))
  let s1 := (rotr32 17 w2).xor ((rotr32 19 w2).xor (w2 >>> 10))
  w ++ [(w.getD (n - 16) 0 + s0 + w.getD (n - 7) 0 + s1) % 2 ^ 32]

/-- The 64-word message schedule of one block. -/
def sha256Schedule (block : Bytes) : List Nat :=
  let w16 := (List.range 16).map (fun i => beNum ((block.drop (4 * i)).take 4))
  (List.range 48).foldl (fun w _ => schedStep w) w16

/-- One SHA-256 compression round. -/
def sha256Round (w : List Nat) (st : List Nat) (i : Nat) : List Nat :=
  let a := st.getD 0 0
  let b := st.getD 1 0
  let c := st.getD 2 0
  let d := st.getD 3 0
  let e := st.getD 4 0
  let f := st.getD 5 0
  let g := st.getD 6 0
  let h := st.getD 7 0
  let s1 := (rotr32 6 e).xor ((rotr32 11 e).xor (rotr32 25 e))
  let ch := (e.land f).xor ((e.xor (2 ^ 32 - 1)).land g)
  let t1 := (h + s1 + ch + sha256K.getD i 0 + w.getD i 0) % 2 ^ 32
  let s0 := (rotr32 2 a).xor ((rotr32 13 a).xor (rotr32 22 a))
  let mj := (a.land b).xor ((a.land c).xor (b.land c))
  let t2 := (s0 + mj) % 2 ^ 32
  [(t1 + t2) % 2 ^ 32, a, b, c, (d + t1) % 2 ^ 32, e, f, g]

/-- SHA-256 compression of one 64-byte block. -/
def sha256Compress (hv : List Nat) (block : Bytes) : List Nat :=
  let w := sha256Schedule block
  let st := (List.range 64).foldl (sha256Round w) hv
  (List.range 8).map (fun i => add32 (hv.getD i 0) (st.getD i 0))

/-- Full SHA-256 of a byte string: 32 output bytes. -/
def sha256 (msg : Bytes) : Bytes :=
  let padded := sha256Pad msg
  let hv := (chunk64 (padded.length) padded).foldl sha256Compress sha256H0
  (hv.map be32Bytes).flatten

/--
`Sha256` from `merkle_tree/hasher.go`: hashes the concatenation of the
main input and the extras.
-/
def sha256Go (data : Bytes) (extras : List Bytes) : Bytes :=
  sha256 (data ++ extras.flatten)

/-! ## merkle_tree : zero hashes and the root engine -/

/--
Modelled from the spec: the initialization of the process-wide
`ZeroHashes` table is not among the provided source files (only its
uses are); spec section 4.6 defines `ZeroHashes[0] = [0;32]` and
`ZeroHashes[i+1] = sha256(ZeroHashes[i] || ZeroHashes[i])`.
-/
def zeroHashes : Nat → Bytes
  | 0 => List.replicate 32 0
  | i + 1 => sha256Go (zeroHashes i) [zeroHashes i]

/--
`gohashtree.HashByteSlice` (external dependency, crypto black box):
pairwise SHA-256 of consecutive 64-byte blocks.
-/
def hashLayer (layer : Bytes) : Bytes :=
  ((chunk64 layer.length layer).map (fun blk => sha256Go blk [])).flatten

/--
One level of the in-place reduction loop of `ComputeMerkleRootRange`:
pad an odd layer with `ZeroHashes[i]`, hash pairwise, truncate to the
reduced size.
-/
def reduceLevel (layer : Bytes) (i : Nat) : Bytes :=
  let layer1 := if (layer.length / 32) % 2 ≠ 0 then layer ++ zeroHashes i else layer
  let outputSize := (layer1.length / 32 / 2) * 32
  (hashLayer layer1).take outputSize

/--
`ComputeMerkleRootRange` (`merkle_tree/merkle_root.go`): requires a
32-byte-multiple input, reduces level by level from `startLevel` up to
`GetDepth(leafLimit)`, and outputs the first 32 bytes of the final
layer.
-/
def computeMerkleRootRange (data : Bytes) (leafLimit startLevel : Nat) :
    Except String Bytes :=
  if data.length % 32 ≠ 0 then .error "data length must be a multiple of 32"
  else
    let depth := getDepth leafLimit
    let layer := (List.range' startLevel (depth - startLevel)).foldl reduceLevel data
    .ok ((layer.take 32) ++ List.replicate (32 - (layer.take 32).length) 0)

/--
`ComputeMerkleRoot`: inputs of at most 32 bytes are copied (zero-padded
to the 32-byte output); larger inputs reduce with
`leafLimit = NextPowerOfTwo(⌈len/32⌉)`.
-/
def nextPowerOfTwoAux (m : Nat) : Nat :=
  let m := m ||| (m >>> 1)
  let m := m ||| (m >>> 2)
  let m := m ||| (m >>> 4)
  let m := m ||| (m >>> 8)
  let m := m ||| (m >>> 16)
  m ||| (m >>> 32)

/-- `NextPowerOfTwo` from `merkle_tree/hasher.go` (bit smearing on `uint64`). -/
def nextPowerOfTwo (n : Nat) : Nat :=
  if n = 0 then 1 else (nextPowerOfTwoAux (n - 1) + 1) % 2 ^ 64

def computeMerkleRoot (data : Bytes) : Except String Bytes :=
  if data.length ≤ 32 then .ok (data ++ List.replicate (32 - data.length) 0)
  else computeMerkleRootRange data (nextPowerOfTwo ((data.length + 31) / 32)) 0

/-- `ComputeMerkleRootFromLevel`: like `ComputeMerkleRoot` but with the
leaf limit derived from the caller-supplied `dataLength`. -/
def computeMerkleRootFromLevel (data : Bytes) (dataLength startLevel : Nat) :
    Except String Bytes :=
  if data.length ≤ 32 then .ok (data ++ List.replicate (32 - data.length) 0)
  else computeMerkleRootRange data (nextPowerOfTwo ((dataLength + 31) / 32)) startLevel

/-- A 32-byte chunk. -/
abbrev Chunk := Bytes

/-- `MerkleizeVector` (`merkle_tree/list.go`): reduce a chunk list to depth
`GetDepth(length)`, padding odd layers with zero hashes; an empty input
yields `ZeroHashes[depth]` directly. -/
def merkleizeVectorLoop (elements : List Chunk) (i : Nat) : List Chunk :=
  let els := if elements.length % 2 = 1 then elements ++ [zeroHashes i] else elements
  let hashed := (List.range (els.length / 2)).map
    (fun j => sha256Go (els.getD (2 * j) []) [els.getD (2 * j + 1) []])
  hashed

def merkleizeVector (elements : List Chunk) (length : Nat) : Bytes :=
  let depth := getDepth length
  if elements.length = 0 then zeroHashes depth
  else ((List.range depth).foldl merkleizeVectorLoop elements).getD 0 []

/-- `Uint64Root` (`merkle_tree/primatives.go`): the value little-endian in
the low 8 bytes of a 32-byte chunk. -/
def uint64Root (val : Nat) : Bytes :=
  le64Bytes val ++ List.replicate 24 0

/-- `packBytes`: split into 32-byte zero-padded chunks, at least one. -/
def packBytes (data : Bytes) : List Chunk :=
  let numChunks := max ((data.length + 31) / 32) 1
  (List.range numChunks).map
    (fun i => let piece := (data.drop (32 * i)).take 32
              piece ++ List.replicate (32 - piece.length) 0)

/-- `packBasicVector` for `uint64` elements: `length*8` bytes, little-endian
values for the populated prefix, zero beyond, then `packBytes`. -/
def packBasicVectorU64 (xs : List Nat) (length : Nat) : List Chunk :=
  packBytes (((List.range length).map
    (fun i => if i < xs.length then le64Bytes (xs.getD i 0) else List.replicate 8 0)).flatten)

/-- `merkleize` (`flexssz/struct_merkle.go`): empty chunk lists give the
zero hash at the limit's depth; otherwise the flat bytes reduce through
the root engine, with `ComputeMerkleRootFromLevel` when a limit is given. -/
def merkleize (chunks : List Chunk) (limit : Nat) : Except String Bytes :=
  if chunks.length = 0 then
    if limit = 0 then .ok (List.replicate 32 0)
    else .ok (zeroHashes (getDepth limit))
  else
    let flatBytes := chunks.flatten
    if 0 < limit then computeMerkleRootFromLevel flatBytes (limit * 32) 0
    else computeMerkleRoot flatBytes

/-- `mixInLength`: `sha256(root || uint64Root(length))`. -/
def mixInLength (root : Bytes) (length : Nat) : Bytes :=
  sha256Go root [uint64Root length]

/--
The composite-type fragment over which `hashTreeRoot` is embedded: a
`uint64` list with a declared maximum, and a `uint64` vector.
-/
inductive MTyp where
  | mListU64 (maxLen : Nat)
  | mVecU64 (n : Nat)
deriving Repr, DecidableEq

/--
Values for the hash-tree-root fragment: the composite values themselves
and Go pointers to them (`mvPtr none` is a nil pointer).
-/
inductive MVal where
  | mvListU64 (xs : List Nat)
  | mvVecU64 (xs : List Nat)
  | mvPtr (inner : Option MVal)

/-- `hashTreeRootList` for a `[]uint64` field: pack, merkleize with
`chunkCount = max element count`, then mix in the length. -/
def hashTreeRootListU64 (xs : List Nat) (maxLen : Nat) : Except String Bytes := do
  let chunks := packBasicVectorU64 xs xs.length
  let root ← merkleize chunks maxLen
  .ok (mixInLength root xs.length)

/-- `hashTreeRootVector` for a `[N]uint64` field: pack to `N` elements and
`MerkleizeVector` with `limit = N * 8`. -/
def hashTreeRootVectorU64 (xs : List Nat) (n : Nat) : Except String Bytes :=
  .ok (merkleizeVector (packBasicVectorU64 xs n) (n * 8))

/--
`hashTreeRoot` (`flexssz/struct_merkle.go` lines 47-55 and onward) over
the embedded fragment: a nil pointer returns the all-zero 32-byte
chunk; a non-nil pointer recurses into the pointed value; composite
values dispatch on their type.
-/
def hashTreeRootM : MVal → MTyp → Except String Bytes
  | .mvPtr none, _ => .ok (List.replicate 32 0)
  | .mvPtr (some v), t => hashTreeRootM v t
  | .mvListU64 xs, .mListU64 maxLen => hashTreeRootListU64 xs maxLen
  | .mvVecU64 xs, .mVecU64 n => hashTreeRootVectorU64 xs n
  | _, _ => .error "unsupported SSZ type for merkle root"

/-! ## flexssz/struct_encode.go and struct_decode.go

The reflective marshaller walks a Go struct guided by resolved type
info.  The embedding replaces reflection by an inductive universe of
the SSZ schema kinds the marshaller dispatches on, and an inductive
value universe standing for the Go values.
-/

/-- The schema kinds dispatched on by the marshaller: the basic scalars,
byte vectors (`ssz-size` byte slices), bit vectors, byte lists
(`ssz-max` byte slices), bit lists, `uint64` lists, and containers
(nested structs).  A `maxLen`/`maxBits` of 0 means no declared limit. -/
inductive Styp where
  | tU8
  | tU16
  | tU32
  | tU64
  | tBool
  | tByteVector (n : Nat)
  | tBitVector (n : Nat)
  | tByteList (maxLen : Nat)
  | tBitList (maxBits : Nat)
  | tListU64 (maxLen : Nat)
  | tContainer (fields : List Styp)

/-- The Go values the marshaller consumes: scalars, byte slices,
`uint64` slices, and struct field tuples. -/
inductive Val where
  | vU8 (x : Nat)
  | vU16 (x : Nat)
  | vU32 (x : Nat)
  | vU64 (x : Nat)
  | vBool (x : Bool)
  | vBytes (bs : Bytes)
  | vU64s (xs : List Nat)
  | vFields (vs : List Val)

mutual

/-- `IsVariable` of the resolved type info: lists, bit lists and
containers with a variable descendant are variable. -/
def isVariable : Styp → Bool
  | .tByteList _ => true
  | .tBitList _ => true
  | .tListU64 _ => true
  | .tContainer fs => anyVariable fs
  | _ => false

def anyVariable : List Styp → Bool
  | [] => false
  | f :: rest => isVariable f || anyVariable rest

end

mutual

/-- The fixed byte size of a fixed type (`getFixedSize`); for containers
it is the fixed-part size (4 bytes per variable field). -/
def fixedSizeT : Styp → Nat
  | .tU8 => 1
  | .tU16 => 2
  | .tU32 => 4
  | .tU64 => 8
  | .tBool => 1
  | .tByteVector n => n
  | .tBitVector n => (n + 7) / 8
  | .tByteList _ => 0
  | .tBitList _ => 0
  | .tListU64 _ => 0
  | .tContainer fs => sumFixed fs

/-- The fixed-part size of a field list: each variable field occupies a
4-byte offset slot, each fixed field its fixed size
(`decodeStructFromDecoder`, `struct_decode.go` lines 40-50). -/
def sumFixed : List Styp → Nat
  | [] => 0
  | f :: rest => (if isVariable f then 4 else fixedSizeT f) + sumFixed rest

end

mutual

/-- `encodeFixedField` (`struct_encode.go`): scalars become little-endian
writes, sized byte slices are length-checked and written, bit vectors
go through `EncodeBitVector`, nested structs are encoded inline. -/
def encodeFixedField (b : Builder) : Val → Styp → Except String Builder
  | .vU8 x, .tU8 => .ok (b.encodeUint8 x)
  | .vU16 x, .tU16 => .ok (b.encodeUint16 x)
  | .vU32 x, .tU32 => .ok (b.encodeUint32 x)
  | .vU64 x, .tU64 => .ok (b.encodeUint64 x)
  | .vBool x, .tBool => .ok (b.encodeBool x)
  | .vBytes bs, .tByteVector n =>
    if bs.length ≠ n then .error "slice length does not match ssz-size"
    else .ok (b.encodeFixed bs)
  | .vBytes bs, .tBitVector n =>
    if bs.length ≠ (n + 7) / 8 then .error "bitvector byte count mismatch"
    else
      match encodeBitVector bs n with
      | .error e => .error e
      | .ok enc => .ok (b.encodeFixed enc)
  | .vFields vs, .tContainer fs => encodeStructFields b vs fs
  | _, _ => .error "unsupported type for fixed field"

/-- `encodeVariableField` (`struct_encode.go`): byte lists are
limit-checked and heap-appended, bit lists go through `EncodeBitList`,
`uint64` lists and variable structs are encoded in a nested dynamic
context. -/
def encodeVariableField (b : Builder) : Val → Styp → Except String Builder
  | .vBytes bs, .tByteList maxLen =>
    if 0 < maxLen ∧ maxLen < bs.length then .error "slice length exceeds limit"
    else .ok (b.encodeBytesB bs)
  | .vBytes bs, .tBitList maxBits =>
    if 0 < maxBits ∧ maxBits < bs.length then .error "slice length exceeds limit"
    else
      match encodeBitList bs maxBits with
      | .error e => .error e
      | .ok enc => .ok (b.encodeBytesB enc)
  | .vU64s xs, .tListU64 maxLen =>
    if 0 < maxLen ∧ maxLen < xs.length then .error "slice length exceeds limit"
    else
      let dyn := xs.foldl (fun bb x => bb.encodeUint64 x) b.enterDynamic
      match dyn.exitDynamic with
      | none => .error "exit variable context without enter"
      | some p => .ok p
  | .vFields vs, .tContainer fs => do
    let dyn ← encodeStructFields b.enterDynamic vs fs
    match dyn.exitDynamic with
    | none => .error "exit variable context without enter"
    | some p => .ok p
  | _, _ => .error "unsupported type for variable field"

/-- `encodeStructToBuilder`: fields in declaration order, dispatched on
their fixed/variable classification. -/
def encodeStructFields (b : Builder) : List Val → List Styp → Except String Builder
  | [], [] => .ok b
  | v :: vrest, f :: frest => do
    let b1 ←
      if isVariable f then encodeVariableField b v f
      else encodeFixedField b v f
    encodeStructFields b1 vrest frest
  | _, _ => .error "field count mismatch"

end

/-- `Marshal` (`struct_encode.go` lines 17-32) for a struct value: encode
all fields into a fresh builder and `Finish`. -/
def marshal (v : Val) (t : Styp) : Except String Bytes :=
  match v, t with
  | .vFields vs, .tContainer fs => do
    let b ← encodeStructFields newBuilder vs fs
    .ok b.finishBytes
  | _, _ => .error "expected struct"

/--
The next-variable-offset peek of `decodeStructFromDecoder`
(`struct_decode.go` lines 73-100): skip over the interleaved fixed
fields in the fixed-part decoder, then read the next 4-byte offset; the
cursor is restored afterwards (hence the decoder is not returned).
-/
def skipToNextVarOffset (fd : Decoder) : List Styp → Except String (Option Nat)
  | [] => .ok none
  | f :: rest =>
    if isVariable f then do
      let (nextOffset, _) ← fd.readUint32
      .ok (some nextOffset)
    else do
      let (_, fd1) ← fd.readN (fixedSizeT f)
      skipToNextVarOffset fd1 rest

/-- The element loop of the fixed-element variable-list decode path:
`numElements` sequential `uint64` reads. -/
def readU64Loop (d : Decoder) : Nat → Except String (List Nat × Decoder)
  | 0 => .ok ([], d)
  | n + 1 => do
    let (x, d1) ← d.readUint64
    let (xs, d2) ← readU64Loop d1 n
    .ok (x :: xs, d2)

mutual

/-- `decodeFixedField` (`struct_decode.go`): scalar reads, sized byte
slices, bit vectors through `DecodeBitVector`, nested structs through
`decodeStructFromDecoder` on the same decoder. -/
def decodeFixedField (d : Decoder) : Styp → Except String (Val × Decoder)
  | .tU8 => do
    let (x, d1) ← d.readUint8
    .ok (.vU8 x, d1)
  | .tU16 => do
    let (x, d1) ← d.readUint16
    .ok (.vU16 x, d1)
  | .tU32 => do
    let (x, d1) ← d.readUint32
    .ok (.vU32 x, d1)
  | .tU64 => do
    let (x, d1) ← d.readUint64
    .ok (.vU64 x, d1)
  | .tBool => do
    let (x, d1) ← d.readBool
    .ok (.vBool x, d1)
  | .tByteVector n => do
    let (bs, d1) ← d.readN n
    .ok (.vBytes bs, d1)
  | .tBitVector n => do
    let (bs, d1) ← d.readN ((n + 7) / 8)
    match decodeBitVector bs n with
    | .error e => .error e
    | .ok dec => .ok (.vBytes dec, d1)
  | .tContainer fs => do
    let (fixedData, d1) ← d.readN (sumFixed fs)
    let (vals, _, d2) ← decodeFieldsLoop d.xs.length (newDecoder fixedData) d1 fs
    .ok (.vFields vals, d2)
  | _ => .error "slice in fixed field must have ssz-size tag"

/-- `decodeVariableField` (`struct_decode.go`): consumes a sub-decoder
holding exactly this field's bytes. -/
def decodeVariableField (d : Decoder) : Styp → Except String Val
  | .tByteList maxLen => do
    let (bs, _) ← d.readAll
    if 0 < maxLen ∧ maxLen < bs.length then .error "slice length exceeds limit"
    else .ok (.vBytes bs)
  | .tBitList maxBits => do
    let (bs, _) ← d.readAll
    match decodeBitList bs maxBits with
    | .error e => .error e
    | .ok (dec, _) => .ok (.vBytes dec)
  | .tListU64 maxLen =>
    let remaining := d.remaining.length
    if remaining % 8 ≠ 0 then .error "invalid data size for slice"
    else
      let numElements := remaining / 8
      if 0 < maxLen ∧ maxLen < numElements then .error "slice length exceeds limit"
      else do
        let (xs, _) ← readU64Loop d numElements
        .ok (.vU64s xs)
  | .tContainer fs => do
    let (fixedData, d1) ← d.readN (sumFixed fs)
    let (vals, _, _) ← decodeFieldsLoop d.xs.length (newDecoder fixedData) d1 fs
    .ok (.vFields vals)
  | _ => .error "unsupported type for variable field"

/--
The field loop of `decodeStructFromDecoder` (`struct_decode.go` lines
60-137): fixed fields decode from the fixed-part decoder `fd`; each
variable field reads its offset from `fd`, computes its size from the
next offset (`uint32` subtraction, widened to `int`) or from
`len(xs) - offset` for the last variable field (an `int` that may be
negative, in which case no bytes are read), reads that many bytes from
the main decoder `d`, and decodes them in a fresh sub-decoder.
-/
def decodeFieldsLoop (xsLen : Nat) (fd : Decoder) (d : Decoder) :
    List Styp → Except String (List Val × Decoder × Decoder)
  | [] => .ok ([], fd, d)
  | f :: rest =>
    if isVariable f then do
      let (offset, fd1) ← fd.readUint32
      let nextOpt ← skipToNextVarOffset fd1 rest
      let sizeInt : Int :=
        match nextOpt with
        | some nextOffset => ((nextOffset + 2 ^ 32 - offset) % 2 ^ 32 : Nat)
        | none => (xsLen : Int) - (offset : Int)
      let (varData, d1) ←
        if 0 < sizeInt then d.readN sizeInt.toNat else .ok (([] : Bytes), d)
      let v ← decodeVariableField (newDecoder varData) f
      let (vs, fd2, d2) ← decodeFieldsLoop xsLen fd1 d1 rest
      .ok (v :: vs, fd2, d2)
    else do
      let (v, fd1) ← decodeFixedField fd f
      let (vs, fd2, d2) ← decodeFieldsLoop xsLen fd1 d rest
      .ok (v :: vs, fd2, d2)

end

/-- `decodeStructFromDecoder` (`struct_decode.go` lines 31-139): read the
fixed part, then run the field loop. -/
def decodeStructFromDecoder (d : Decoder) (fs : List Styp) :
    Except String (List Val × Decoder) := do
  let (fixedData, d1) ← d.readN (sumFixed fs)
  let (vals, _, d2) ← decodeFieldsLoop d.xs.length (newDecoder fixedData) d1 fs
  .ok (vals, d2)

/-- `DecodeStruct` (`struct_decode.go` lines 9-28) for a struct type. -/
def decodeStructTop (data : Bytes) (fs : List Styp) : Except String Val := do
  let (vals, _) ← decodeStructFromDecoder (newDecoder data) fs
  .ok (.vFields vals)

mutual

/--
Canonical well-typed values: the value fits its type (scalar ranges,
exact byte-vector sizes, declared limits) and every bit-list is either
empty or ends in a non-zero byte, every bit-vector has its extra bits
clear.  Containers additionally require at least one field (a schema
invariant) and a fixed part below `2^32` (the `uint32` stack cursor).
-/
def validCanonV : Val → Styp → Bool
  | .vU8 x, .tU8 => decide (x < 2 ^ 8)
  | .vU16 x, .tU16 => decide (x < 2 ^ 16)
  | .vU32 x, .tU32 => decide (x < 2 ^ 32)
  | .vU64 x, .tU64 => decide (x < 2 ^ 64)
  | .vBool _, .tBool => true
  | .vBytes bs, .tByteVector n =>
    decide (0 < n) && decide (bs.length = n) && bs.all (fun b => decide (b < 256))
  | .vBytes bs, .tBitVector n =>
    decide (0 < n) && decide (bs.length = (n + 7) / 8) &&
    bs.all (fun b => decide (b < 256)) &&
    (decide (n % 8 = 0) || decide (bs.getLastD 0 &&& (255 ^^^ (2 ^ (n % 8) - 1)) = 0))
  | .vBytes bs, .tByteList maxLen =>
    bs.all (fun b => decide (b < 256)) &&
    (decide (maxLen = 0) || decide (bs.length ≤ maxLen))
  | .vBytes bs, .tBitList maxBits =>
    bs.all (fun b => decide (b < 256)) &&
    (decide (bs = ([] : Bytes)) || decide (bs.getLastD 0 ≠ 0)) &&
    (decide (maxBits = 0) || decide (8 * bs.length ≤ maxBits))
  | .vU64s xs, .tListU64 maxLen =>
    xs.all (fun x => decide (x < 2 ^ 64)) &&
    (decide (maxLen = 0) || decide (xs.length ≤ maxLen)) &&
    decide (8 * xs.length < 2 ^ 32)
  | .vFields vs, .tContainer fs =>
    !fs.isEmpty && decide (sumFixed fs < 2 ^ 32) && validCanonFields vs fs
  | _, _ => false

def validCanonFields : List Val → List Styp → Bool
  | [], [] => true
  | v :: vr, f :: fr => validCanonV v f && validCanonFields vr fr
  | _, _ => false

end

mutual

/-- The byte string a fixed field contributes to the fixed part (the
bytes the corresponding `encodeFixedField` writes). -/
def serFixedV : Val → Styp → Bytes
  | .vU8 x, .tU8 => [x % 256]
  | .vU16 x, .tU16 => le16Bytes x
  | .vU32 x, .tU32 => le32Bytes x
  | .vU64 x, .tU64 => le64Bytes x
  | .vBool x, .tBool => [if x then 1 else 0]
  | .vBytes bs, .tByteVector _ => bs
  | .vBytes bs, .tBitVector n =>
    if n % 8 = 0 then bs
    else bs.dropLast ++ [bs.getLastD 0 &&& (2 ^ (n % 8) - 1)]
  | .vFields vs, .tContainer fs => serFieldsV vs fs
  | _, _ => []

/-- The heap payload a variable field contributes. -/
def serVarPayload : Val → Styp → Bytes
  | .vBytes bs, .tByteList _ => bs
  | .vBytes bs, .tBitList m =>
    match encodeBitList bs m with
    | .ok enc => enc
    | .error _ => []
  | .vU64s xs, .tListU64 _ => (xs.map le64Bytes).flatten
  | .vFields vs, .tContainer fs => serFieldsV vs fs
  | _, _ => []

/-- The full serialization of a container: the fixed part (fixed bytes
and offset slots) followed by the heap (the variable payloads). -/
def serFieldsV (vs : List Val) (fs : List Styp) : Bytes :=
  serSlots vs fs (sumFixed fs) 0 ++ serHeap vs fs

/-- The fixed part: fixed fields contribute their bytes, variable fields
a 4-byte little-endian offset `fixed_part_size + heap_position`. -/
def serSlots : List Val → List Styp → Nat → Nat → Bytes
  | v :: vr, f :: fr, tot, hpos =>
    if isVariable f then
      le32Bytes (tot + hpos) ++ serSlots vr fr tot (hpos + (serVarPayload v f).length)
    else serFixedV v f ++ serSlots vr fr tot hpos
  | _, _, _, _ => []

/-- The heap: the variable payloads in field order. -/
def serHeap : List Val → List Styp → Bytes
  | v :: vr, f :: fr =>
    (if isVariable f then serVarPayload v f else []) ++ serHeap vr fr
  | _, _ => []

end

/--
The per-field bound checks actually performed by `DecodeContainer`'s
second pass: for each variable field, `start ≤ end` and `end ≤ len`
where `end` is the next offset (or the buffer length for the last
field).
-/
def offsetsOkB : List Nat → Nat → Bool
  | [], _ => true
  | [o], len => decide (o ≤ len)
  | o1 :: o2 :: rest, len =>
    (decide (o1 ≤ o2) && decide (o2 ≤ len)) && offsetsOkB (o2 :: rest) len

/-- The bytes `Finish` writes for a word list at a given `plus`. -/
def flattenEnc (ws : List Word) (plus : Nat) : Bytes :=
  (ws.map (wordEncodeTo plus)).flatten

/-!
# Theorems

Helper lemmas first, then one theorem (with witness or counterexample)
per verified claim.
-/

theorem leNum_le16Bytes (x : Nat) : leNum (le16Bytes x) = x % 2 ^ 16 := by
  simp only [le16Bytes, leNum]
  omega

theorem leNum_le32Bytes (x : Nat) : leNum (le32Bytes x) = x % 2 ^ 32 := by
  simp only [le32Bytes, leNum]
  omega

theorem le32Bytes_length (x : Nat) : (le32Bytes x).length = 4 := rfl

theorem leNum_le64Bytes (x : Nat) : leNum (le64Bytes x) = x % 2 ^ 64 := by
  simp only [le64Bytes, leNum]
  omega

theorem le64Bytes_length (x : Nat) : (le64Bytes x).length = 8 := rfl

theorem getDepthAux_eq_log2 (fuel v : Nat) (h : v < 2 ^ fuel) :
    getDepthAux fuel v = Nat.log2 v := by
  induction fuel generalizing v with
  | zero =>
    interval_cases v
    simp [getDepthAux, Nat.log2]
  | succ n ih =>
    rw [getDepthAux]
    by_cases h2 : 1 < v
    · rw [if_pos h2, ih (v / 2) (by omega)]
      conv_rhs => rw [Nat.log2]
      rw [if_pos (by omega)]
    · rw [if_neg h2]
      conv_rhs => rw [Nat.log2]
      rw [if_neg (by omega)]

/-! ## C4 : GetDepth -/

/--
C4, counterexample: the claim states `GetDepth(n) = ⌈log2 n⌉` for
`n > 1` and in particular `GetDepth(5) = 3`, but the code halves until
the value reaches 1, which computes `⌊log2 n⌋`: `GetDepth(5) = 2`.
-/
theorem getDepth_five : getDepth 5 = 2 ∧ getDepth 5 ≠ 3 := by decide

/--
C4, amended: for every `uint64` input, `GetDepth(n)` equals 0 when
`n ≤ 1` and `⌊log2 n⌋` (not the ceiling) otherwise; in particular
`GetDepth(5) = 2`.
-/
theorem getDepth_eq_floor_log2 (v : Nat) (h : v < 2 ^ 64) :
    getDepth v = if v ≤ 1 then 0 else Nat.log2 v := by
  unfold getDepth
  by_cases h1 : v ≤ 1
  · simp [h1]
  · rw [if_neg h1, if_neg h1, getDepthAux_eq_log2 64 v h]

/-- C4, witness for the amended theorem at `v = 5`. -/
theorem getDepth_eq_floor_log2_witness :
    getDepth 5 = if 5 ≤ 1 then 0 else Nat.log2 5 :=
  getDepth_eq_floor_log2 5 (by norm_num)

/-! ## C8 : Decoder.Read -/

/--
C8, counterexample: the claim says a read fails only when fewer than
`n` bytes remain; but with the cursor at end-of-buffer a read of
`n = 0` bytes (0 remaining, not fewer than 0) still fails with `EOF`
because the end-of-buffer test comes first.
-/
theorem read_zero_at_end :
    (Decoder.mk [1, 2] 2).read 0 = Except.error "EOF" ∧
    (Decoder.mk [1, 2] 2).xs.length - (Decoder.mk [1, 2] 2).cur = 0 := by
  constructor <;> rfl

/--
C8, amended: with the cursor at end-of-buffer every read (even of 0
bytes) fails with `EOF`; otherwise a read of more bytes than remain
fails with the unexpected-EOF error and the cursor does not advance;
otherwise the read returns exactly `n` bytes and advances the cursor by
`n`, never past the end of the buffer.
-/
theorem read_spec (d : Decoder) (n : Nat) :
    (d.cur = d.xs.length → d.read n = Except.error "EOF") ∧
    (d.cur < d.xs.length → d.xs.length - d.cur < n →
      d.read n = Except.error "ssz: unexpected EOF") ∧
    (d.cur < d.xs.length → n ≤ d.xs.length - d.cur →
      d.read n = Except.ok ((d.xs.drop d.cur).take n, ⟨d.xs, d.cur + n⟩) ∧
      ((d.xs.drop d.cur).take n).length = n ∧ d.cur + n ≤ d.xs.length) := by
  refine ⟨fun he => ?_, fun hlt hless => ?_, fun hlt hge => ?_⟩
  · simp [Decoder.read, he]
  · simp [Decoder.read, Nat.ne_of_lt hlt, hless]
  · refine ⟨?_, ?_, by omega⟩
    · simp only [Decoder.read, if_neg (Nat.ne_of_lt hlt),
        if_neg (Nat.not_lt.mpr hge)]
    · simp only [List.length_take, List.length_drop]
      omega

/-- C8, witness for the amended theorem: a 2-byte read mid-buffer. -/
theorem read_spec_witness :
    (Decoder.mk [5, 6, 7] 1).read 2 =
      Except.ok ([6, 7], Decoder.mk [5, 6, 7] 3) :=
  ((read_spec (Decoder.mk [5, 6, 7] 1) 2).2.2 (by decide) (by decide)).1

/-! ## C5 : offset emission -/

/--
C5, counterexample: the claim says an offset `≥ 2^32` is detected and
reported; but `word.EncodeTo` writes `uint32(plus + pointer)`, silently
truncating: the offset `2^32` is emitted as the same four bytes as the
offset 0, with no error (the function can only fail if the writer
does).
-/
theorem encodeTo_truncates :
    wordEncodeTo 0 (Word.ptr (2 ^ 32)) = [0, 0, 0, 0] ∧
    wordEncodeTo 0 (Word.ptr (2 ^ 32)) = wordEncodeTo 0 (Word.ptr 0) := by
  constructor <;> rfl

/--
C5, amended: every back-patched offset is written as the 4-byte
little-endian value `(cur + heap_position) mod 2^32`; offsets at or
above `2^32` are silently truncated rather than detected, and `Finish`
emits the truncated bytes.
-/
theorem encodeTo_le32 (plus p : Nat) :
    (wordEncodeTo plus (Word.ptr p)).length = 4 ∧
    leNum (wordEncodeTo plus (Word.ptr p)) = (plus + p) % 2 ^ 32 ∧
    (Builder.mk none [Word.ptr p] plus 0 []).finishBytes = le32Bytes (plus + p) := by
  refine ⟨rfl, leNum_le32Bytes _, ?_⟩
  simp [Builder.finishBytes, Builder.stack, Builder.cur, Builder.heap, wordEncodeTo]

/-! ## C7 : panic sites -/

theorem bitsLenAux_spec (fuel m : Nat) (h : bitsLenAux fuel m < fuel) :
    m < 2 ^ bitsLenAux fuel m := by
  induction fuel generalizing m with
  | zero => omega
  | succ k ih =>
    rw [bitsLenAux] at h ⊢
    by_cases hm : m = 0
    · simp [hm]
    · rw [if_neg hm] at h ⊢
      have h2 := ih (m / 2) (by omega)
      have : m / 2 < 2 ^ bitsLenAux k (m / 2) := h2
      rw [pow_succ]
      omega

theorem le_two_pow_nextPowerOf2Index (n : Nat) (h1 : 1 ≤ n)
    (h2 : nextPowerOf2Index n < 32) : n ≤ 2 ^ nextPowerOf2Index n := by
  unfold nextPowerOf2Index at h2 ⊢
  by_cases hn : n ≤ 1
  · simp only [if_pos hn]
    omega
  · rw [if_neg hn] at h2 ⊢
    have := bitsLenAux_spec 64 (n - 1) (by unfold bitsLen at h2; omega)
    unfold bitsLen at h2 ⊢
    omega

theorem isPowerOf2_two_pow (k : Nat) : isPowerOf2 (2 ^ k) = true := by
  have hpos : 0 < 2 ^ k := Nat.two_pow_pos k
  have h2 : 2 ^ k &&& (2 ^ k - 1) = 0 := by
    apply Nat.eq_of_testBit_eq
    intro i
    rw [Nat.testBit_land, Nat.testBit_two_pow, Nat.testBit_two_pow_sub_one,
      Nat.zero_testBit]
    by_cases h : k = i
    · subst h
      simp
    · simp [h]
  unfold isPowerOf2
  simp [h2, Nat.pos_iff_ne_zero.mp hpos]

/-- `bind` over a successful `Except` computation. -/
theorem bindOk {α β : Type} (a : α) (f : α → Except String β) :
    (Except.ok a : Except String α) >>= f = f a := rfl

/--
C9, counterexample: the claim requires the returned buffer's capacity
to be a power of two for every `n ≥ 0`; but `Get(0)` returns a fresh
empty buffer whose capacity is 0, which is not a power of two.
-/
theorem bufpool_get_zero :
    (newBufferPool.get 0).1.len = 0 ∧
    (newBufferPool.get 0).1.dat.length = 0 ∧
    isPowerOf2 (newBufferPool.get 0).1.dat.length = false := by
  refine ⟨rfl, rfl, rfl⟩

/--
C9, amended: for `1 ≤ n` within the 32 pooled size classes
(`nextPowerOf2Index n < 32`), and any pool whose pooled buffers are
zeroed power-of-two blocks (the invariant `Put` maintains), `Get(n)`
returns a buffer of length exactly `n` whose capacity is the power of
two `2^nextPowerOf2Index n ≥ n` and whose first `n` bytes are zero;
moreover `Put` preserves the pool invariant.  `Get(0)` instead returns
an empty buffer of capacity 0, and requests beyond the size classes are
allocated directly with capacity `n`.
-/
theorem bufpool_get_spec (p : BufferPool) (n : Nat) (hwf : poolWF p)
    (h1 : 1 ≤ n) (h2 : nextPowerOf2Index n < 32) :
    (p.get n).1.len = n ∧
    (p.get n).1.dat.length = 2 ^ nextPowerOf2Index n ∧
    n ≤ (p.get n).1.dat.length ∧
    isPowerOf2 (p.get n).1.dat.length = true ∧
    (p.get n).1.dat.take n = List.replicate n 0 ∧
    (∀ bb : Buf, poolWF (p.put bb)) := by
  have hle := le_two_pow_nextPowerOf2Index n h1 h2
  have hdat : (p.get n).1.dat = List.replicate (2 ^ nextPowerOf2Index n) 0 ∧
      (p.get n).1.len = n := by
    unfold BufferPool.get
    rw [if_neg (by omega), if_neg (by omega)]
    cases hc : p.pools (nextPowerOf2Index n) with
    | nil => exact ⟨rfl, rfl⟩
    | cons b rest =>
      refine ⟨?_, rfl⟩
      exact hwf _ b (by rw [hc]; exact List.mem_cons_self b rest)
  refine ⟨hdat.2, ?_, ?_, ?_, ?_, ?_⟩
  · rw [hdat.1, List.length_replicate]
  · rw [hdat.1, List.length_replicate]; exact hle
  · rw [hdat.1, List.length_replicate]; exact isPowerOf2_two_pow _
  · rw [hdat.1, List.take_replicate, Nat.min_eq_left hle]
  · intro bb
    unfold BufferPool.put
    by_cases hc0 : bb.dat.length = 0
    · simpa [hc0] using hwf
    · rw [if_neg hc0]
      cases hpi : powerOf2Index bb.dat.length with
      | none => exact hwf
      | some idx =>
        dsimp only
        by_cases hge : 32 ≤ idx
        · simpa [hge] using hwf
        · rw [if_neg hge]
          by_cases hcap : bb.dat.length ≠ 2 ^ idx
          · simpa [hcap] using hwf
          · rw [if_neg (by simpa using hcap)]
            intro i b hb
            simp only at hb
            by_cases hi : i = idx
            · rw [if_pos hi] at hb
              rcases List.mem_cons.mp hb with h | h
              · subst h
                simp only [hi]
                congr 1
                omega
              · exact hwf i b h
            · rw [if_neg hi] at hb
              exact hwf i b hb

/-- C9, witness for the amended theorem: `Get(5)` on a fresh pool. -/
theorem bufpool_get_spec_witness :
    (newBufferPool.get 5).1.len = 5 ∧
    (newBufferPool.get 5).1.dat.length = 2 ^ nextPowerOf2Index 5 := by
  have h := bufpool_get_spec newBufferPool 5
    (fun i b hb => by simp [newBufferPool] at hb) (by decide) (by decide)
  exact ⟨h.1, h.2.1⟩

/-! ## C2 : container offset validation -/

theorem read_exact (pre mid post : Bytes) (h : 0 < mid.length + post.length) :
    (Decoder.mk (pre ++ (mid ++ post)) pre.length).read mid.length =
      Except.ok (mid, ⟨pre ++ (mid ++ post), pre.length + mid.length⟩) := by
  have hlen : (pre ++ (mid ++ post)).length =
      pre.length + (mid.length + post.length) := by
    simp [List.length_append]
  rw [Decoder.read]
  rw [if_neg (by simp only [hlen]; omega), if_neg (by simp only [hlen]; omega)]
  congr 1
  rw [List.drop_left pre (mid ++ post), List.take_left mid post]

/-- `pure` for `Except` is `ok`. -/
theorem pureOk {α : Type} (a : α) : (pure a : Except String α) = Except.ok a := rfl

theorem dcFirstPass_var (fn : Decoder → Except String Unit) (os : List Nat)
    (pre post : Bytes) (h : ∀ o ∈ os, o < 2 ^ 32) :
    dcFirstPass (Decoder.mk (pre ++ ((os.map le32Bytes).flatten ++ post)) pre.length)
        (os.map fun _ => ContainerElement.variableE fn) =
      Except.ok
        (⟨pre ++ ((os.map le32Bytes).flatten ++ post), pre.length + 4 * os.length⟩,
         os.map fun o => (o, fn)) := by
  induction os generalizing pre with
  | nil => simp [dcFirstPass]
  | cons o os ih =>
    have hread := read_exact pre (le32Bytes o) ((os.map le32Bytes).flatten ++ post)
      (by simp [le32Bytes])
    simp only [le32Bytes_length] at hread
    have hih := ih (pre ++ le32Bytes o)
      (fun x hx => h x (List.mem_cons_of_mem o hx))
    simp only [List.map_cons, dcFirstPass, Decoder.readOffset, Decoder.readUint32,
      List.flatten_cons]
    rw [List.append_assoc (le32Bytes o), hread]
    simp only [bindOk, pureOk]
    rw [leNum_le32Bytes, Nat.mod_eq_of_lt (h o (List.mem_cons_self o os))]
    rw [show pre ++ (le32Bytes o ++ ((os.map le32Bytes).flatten ++ post)) =
        (pre ++ le32Bytes o) ++ ((os.map le32Bytes).flatten ++ post) by
      simp [List.append_assoc]]
    rw [show pre.length + 4 = (pre ++ le32Bytes o).length by
      simp [List.length_append, le32Bytes]]
    rw [hih]
    simp only [bindOk, pureOk, List.length_cons]
    rw [show (pre ++ le32Bytes o).length + 4 * os.length =
        pre.length + 4 * (os.length + 1) by
      simp only [List.length_append, le32Bytes_length]
      omega]

theorem dcSecondPass_triv (xs : Bytes) (os : List Nat) :
    dcSecondPass xs (os.map fun o => (o, fun _ => Except.ok ())) =
      (if offsetsOkB os xs.length then Except.ok ()
       else Except.error "invalid offset") := by
  induction os with
  | nil => simp [dcSecondPass, offsetsOkB]
  | cons o os ih =>
    cases os with
    | nil =>
      simp only [List.map_cons, List.map_nil]
      rw [dcSecondPass, offsetsOkB]
      by_cases hcond : o > xs.length ∨ xs.length > xs.length ∨ o > xs.length
      · rw [if_pos hcond, if_neg (by simp only [decide_eq_true_eq]; omega)]
      · rw [if_neg hcond, if_pos (by simp only [decide_eq_true_eq]; omega)]
        rfl
    | cons o2 rest =>
      simp only [List.map_cons] at ih ⊢
      rw [dcSecondPass]
      by_cases hcond : o > xs.length ∨ o2 > xs.length ∨ o > o2
      · rw [if_pos hcond, if_neg (by
          rw [offsetsOkB]
          simp only [Bool.and_eq_true, decide_eq_true_eq, not_and]
          intro hx
          omega)]
      · rw [if_neg hcond]
        simp only [bindOk]
        rw [ih]
        have hredux : offsetsOkB (o :: o2 :: rest) xs.length =
            offsetsOkB (o2 :: rest) xs.length := by
          rw [offsetsOkB]
          have hd1 : decide (o ≤ o2) = true := by
            simp only [decide_eq_true_eq]
            omega
          have hd2 : decide (o2 ≤ xs.length) = true := by
            simp only [decide_eq_true_eq]
            omega
          rw [hd1, hd2]
          simp
        rw [hredux]

/--
C2, counterexample: the claim requires `offset[0] == fixed_part_size`
(here 4, for one variable field) with any violation failing before the
variable decode; but `DecodeContainer` never compares the first offset
with the fixed size — a buffer of length 8 whose single offset is 8
(pointing past the fixed part, at the buffer end) decodes successfully.
-/
theorem decodeContainer_skips_fixed_size_check :
    decodeContainer (newDecoder [8, 0, 0, 0, 9, 9, 9, 9])
        [ContainerElement.variableE (fun _ => Except.ok ())] =
      Except.ok (Decoder.mk [8, 0, 0, 0, 9, 9, 9, 9] 4) ∧
    leNum [8, 0, 0, 0] = 8 ∧ (8 : Nat) ≠ 4 :=
  ⟨rfl, rfl, by decide⟩

/--
C2, amended: for a container of `k` variable fields, the only
validation performed is the per-field bound check of the second pass
(`start ≤ end ≤ buffer_length`, with `end` the next offset or the
buffer length): decoding succeeds exactly when those bounds hold.
`offset[0]` is never compared with the fixed part size, and a
violation at field `i` is only detected when field `i`'s turn comes,
after fields `0..i-1` have already been decoded.
-/
theorem decodeContainer_offsets (os : List Nat) (rest : Bytes)
    (h : ∀ o ∈ os, o < 2 ^ 32) :
    Except.isOk (decodeContainer (newDecoder ((os.map le32Bytes).flatten ++ rest))
        (os.map fun _ => ContainerElement.variableE (fun _ => Except.ok ()))) =
      offsetsOkB os ((os.map le32Bytes).flatten ++ rest).length := by
  unfold decodeContainer
  have hfp := dcFirstPass_var (fun _ => Except.ok ()) os [] rest h
  simp only [List.nil_append, List.length_nil] at hfp
  rw [show newDecoder ((os.map le32Bytes).flatten ++ rest) =
    Decoder.mk ((os.map le32Bytes).flatten ++ rest) 0 from rfl, hfp]
  simp only [bindOk]
  rw [dcSecondPass_triv]
  split_ifs with hok
  · rw [hok]
    rfl
  · rw [Bool.eq_false_iff.mpr hok]
    rfl

/-! ## Bitlist lemmas (C10, C3, and the round-trip of C1) -/

theorem dropWhile_replicate_zero (k : Nat) (l : List Nat) :
    (List.replicate k 0 ++ l).dropWhile (· == 0) = l.dropWhile (· == 0) := by
  induction k with
  | zero => rfl
  | succ m ih => simp [List.replicate_succ, List.dropWhile]

theorem dropTrailingZeros_append_replicate (bs : Bytes) (k : Nat) :
    dropTrailingZeros (bs ++ List.replicate k 0) = dropTrailingZeros bs := by
  unfold dropTrailingZeros
  rw [List.reverse_append, List.reverse_replicate, dropWhile_replicate_zero]

theorem getLastD_eq_getLast (bs : Bytes) (h : bs ≠ []) :
    bs.getLastD 0 = bs.getLast h := by
  rw [List.getLastD_eq_getLast?, List.getLast?_eq_getLast _ h]
  rfl

theorem dropTrailingZeros_eq_self (bs : Bytes) (h1 : bs ≠ [])
    (h2 : bs.getLastD 0 ≠ 0) : dropTrailingZeros bs = bs := by
  have hdecomp : bs.dropLast ++ [bs.getLast h1] = bs := List.dropLast_append_getLast h1
  rw [getLastD_eq_getLast bs h1] at h2
  have hrev : bs.reverse = bs.getLast h1 :: bs.dropLast.reverse := by
    conv_lhs => rw [← hdecomp]
    simp [List.reverse_append]
  unfold dropTrailingZeros
  rw [hrev, List.dropWhile_cons, if_neg (by simp [h2])]
  rw [← hrev, List.reverse_reverse]

/--
C10: appending trailing zero bytes to a bitlist does not change its
encoding (within the declared limit): the encoder trims to the highest
non-zero byte before placing the delimiter, so the encoding is not
injective on inputs differing only in trailing zeros.
-/
theorem encodeBitList_trailing_zero_bytes (bits : Bytes) (k maxBits : Nat)
    (h : maxBits = 0 ∨ 8 * (bits.length + k) ≤ maxBits) :
    encodeBitList (bits ++ List.replicate k 0) maxBits =
      encodeBitList bits maxBits := by
  by_cases hb : bits.length = 0
  · have hbs : bits = [] := List.length_eq_zero.mp hb
    subst hbs
    by_cases hk : k = 0
    · subst hk
      rfl
    · have hlhs : encodeBitList (([] : Bytes) ++ List.replicate k 0) maxBits =
          .ok [1] := by
        rw [List.nil_append]
        simp only [encodeBitList, List.length_replicate]
        rw [if_neg hk]
        rw [if_neg (by
          rintro ⟨h1, h2⟩
          rcases h with h | h <;> simp_all <;> omega)]
        rw [show dropTrailingZeros (List.replicate k 0) = [] from by
          rw [show List.replicate k 0 = [] ++ List.replicate k 0 from rfl,
            dropTrailingZeros_append_replicate]
          rfl]
        rw [if_pos (show ([] : Bytes).length = 0 from rfl)]
      rw [hlhs]
      rfl
  · have hMok1 : ¬(0 < maxBits ∧ maxBits < (bits.length + k) * 8) := by
      rintro ⟨h1, h2⟩
      rcases h with h | h <;> omega
    have hMok2 : ¬(0 < maxBits ∧ maxBits < bits.length * 8) := by
      rintro ⟨h1, h2⟩
      rcases h with h | h <;> omega
    have hnz : ¬(bits.length + k = 0) := by omega
    simp only [encodeBitList]
    rw [dropTrailingZeros_append_replicate]
    simp only [List.length_append, List.length_replicate]
    rw [if_neg hnz, if_neg hMok1, if_neg hb, if_neg hMok2]

/-- C10, witness: `[0x03]` padded with two zero bytes encodes exactly
like `[0x03]` at a 24-bit limit. -/
theorem encodeBitList_trailing_zero_bytes_witness :
    encodeBitList ([3] ++ List.replicate 2 0) 24 = encodeBitList [3] 24 :=
  encodeBitList_trailing_zero_bytes [3] 2 24 (Or.inr (by norm_num))

set_option maxRecDepth 8192 in
/-- The delimiter-placement and delimiter-location loops agree on every
byte: setting the delimiter one above the highest set bit of a non-zero
byte `b` (when it stays in the byte) yields a byte whose most
significant bit is the delimiter, and clearing it recovers `b`. -/
theorem delim_byte_props :
    ∀ b : Fin 256, 0 < b.val → delimLoop 8 128 b.val * 2 % 256 ≠ 0 →
      2 ≤ (b.val ||| delimLoop 8 128 b.val * 2 % 256) ∧
      (msbLoop 8 128 7 (b.val ||| delimLoop 8 128 b.val * 2 % 256)).1 =
        delimLoop 8 128 b.val * 2 % 256 ∧
      (msbLoop 8 128 7 (b.val ||| delimLoop 8 128 b.val * 2 % 256)).2 ≤ 7 ∧
      ((b.val ||| delimLoop 8 128 b.val * 2 % 256) &&&
        (255 ^^^ (msbLoop 8 128 7 (b.val ||| delimLoop 8 128 b.val * 2 % 256)).1))
        = b.val := by
  decide

theorem msbLoop_one : msbLoop 8 128 7 1 = (1, 0) := by decide

/-- Encoding never fails when the input fits the declared limit. -/
theorem encodeBitList_ok (bits : Bytes) (M : Nat)
    (hM : M = 0 ∨ 8 * bits.length ≤ M) :
    ∃ enc, encodeBitList bits M = .ok enc := by
  simp only [encodeBitList]
  by_cases h0 : bits.length = 0
  · rw [if_pos h0]
    exact ⟨[1], rfl⟩
  · rw [if_neg h0, if_neg (by rintro ⟨h1, h2⟩; rcases hM with h | h <;> omega)]
    by_cases h1 : (dropTrailingZeros bits).length = 0
    · rw [if_pos h1]
      exact ⟨[1], rfl⟩
    · rw [if_neg h1]
      by_cases h2 : delimLoop 8 128 ((dropTrailingZeros bits).getLastD 0) * 2 % 256 = 0
      · rw [if_pos h2]
        exact ⟨_, rfl⟩
      · rw [if_neg h2]
        exact ⟨_, rfl⟩

/-- Decoding inverts encoding on canonical bitlists (empty, or last
byte non-zero). -/
theorem decodeBitList_encodeBitList (bits enc : Bytes) (M : Nat)
    (hb : isBytes bits)
    (hcanon : bits = [] ∨ bits.getLastD 0 ≠ 0)
    (henc : encodeBitList bits M = .ok enc) :
    ∃ n, decodeBitList enc M = .ok (bits, n) := by
  by_cases hnil : bits = []
  · subst hnil
    have hencEq : enc = [1] := by
      rw [show encodeBitList [] M = .ok [1] from rfl] at henc
      simp only [Except.ok.injEq] at henc
      exact henc.symm
    subst hencEq
    exact ⟨0, rfl⟩
  · have hlast : bits.getLastD 0 ≠ 0 := by
      rcases hcanon with h | h
      · exact absurd h hnil
      · exact h
    have hL : 0 < bits.length := List.length_pos.mpr hnil
    simp only [encodeBitList] at henc
    rw [if_neg (by omega)] at henc
    by_cases hMbad : 0 < M ∧ M < bits.length * 8
    · rw [if_pos hMbad] at henc
      exact absurd henc (by simp)
    rw [if_neg hMbad, dropTrailingZeros_eq_self bits hnil hlast,
      if_neg (by omega)] at henc
    have hlbpos : 0 < bits.getLastD 0 := Nat.pos_of_ne_zero hlast
    have hlblt : bits.getLastD 0 < 256 := by
      rw [getLastD_eq_getLast bits hnil]
      exact hb _ (List.getLast_mem hnil)
    by_cases hs : delimLoop 8 128 (bits.getLastD 0) * 2 % 256 = 0
    · rw [if_pos hs] at henc
      have hencEq : enc = bits ++ [1] := by
        simp only [Except.ok.injEq] at henc
        exact henc.symm
      subst hencEq
      refine ⟨((bits ++ [1]).length - 1) * 8 + 0, ?_⟩
      simp only [decodeBitList]
      rw [if_neg (by simp)]
      rw [if_neg (by
        intro hx
        apply hnil
        have hlen := congrArg List.length hx
        simp only [List.length_append, List.length_cons, List.length_nil] at hlen
        exact List.length_eq_zero.mp (by omega))]
      simp only [List.getLastD_concat]
      rw [if_neg (by norm_num)]
      simp only [msbLoop_one]
      rw [if_neg (by
        rintro ⟨h1, h2⟩
        simp only [List.length_append, List.length_cons, List.length_nil] at h2
        omega)]
      rw [List.dropLast_concat]
      rw [show (1 &&& (255 ^^^ 1)) = 0 from by decide]
      rw [show (bits ++ [0]) = bits ++ List.replicate 1 0 from rfl,
        dropTrailingZeros_append_replicate,
        dropTrailingZeros_eq_self bits hnil hlast]
    · rw [if_neg hs] at henc
      have hencEq : enc = bits.dropLast ++
          [bits.getLastD 0 ||| delimLoop 8 128 (bits.getLastD 0) * 2 % 256] := by
        simp only [Except.ok.injEq] at henc
        exact henc.symm
      subst hencEq
      obtain ⟨h2le, hmsb1, hmsb2, hclr⟩ :=
        delim_byte_props ⟨bits.getLastD 0, hlblt⟩ hlbpos hs
      simp only at h2le hmsb1 hmsb2 hclr
      refine ⟨((bits.dropLast ++
          [bits.getLastD 0 ||| delimLoop 8 128 (bits.getLastD 0) * 2 % 256]).length - 1) * 8 +
          (msbLoop 8 128 7
            (bits.getLastD 0 ||| delimLoop 8 128 (bits.getLastD 0) * 2 % 256)).2, ?_⟩
      simp only [decodeBitList]
      rw [if_neg (by
        simp only [List.length_append, List.length_cons, List.length_nil]
        omega)]
      rw [if_neg (by
        intro hx
        have hlastb := congrArg (fun l => List.getLastD l 0) hx
        simp only [List.getLastD_concat] at hlastb
        rw [show List.getLastD [1] 0 = 1 from rfl] at hlastb
        omega)]

      simp only [List.getLastD_concat]
      rw [if_neg (by omega)]
      rw [if_neg (by
        rintro ⟨h1, h2⟩
        simp only [List.length_append, List.length_cons, List.length_nil,
          List.length_dropLast] at h2
        omega)]
      rw [List.dropLast_concat, hclr]
      rw [show bits.dropLast ++ [bits.getLastD 0] = bits from by
        rw [getLastD_eq_getLast bits hnil]
        exact List.dropLast_append_getLast hnil]
      rw [dropTrailingZeros_eq_self bits hnil hlast]

/--
C3, counterexample: the claim demands `decode(encode(b, M)) == b` for
every bitlist `b` that fits in `M` bits, but the encoder infers the
length from the highest set bit: `[0x00]` (which fits in 8 bits)
encodes to `0x01`, which decodes to the empty bitlist, not `[0x00]`.
-/
theorem bitlist_roundtrip_fails_on_trailing_zero :
    encodeBitList [0] 8 = .ok [1] ∧ decodeBitList [1] 8 = .ok ([], 0) ∧
    ([] : Bytes) ≠ [0] := by
  refine ⟨rfl, rfl, by decide⟩

/--
C3, amended: for every bitlist `b` of genuine bytes that is canonical
(empty or with non-zero last byte) and every maximum `M` with `M = 0`
(unbounded) or `8·len(b) ≤ M`, encoding succeeds and decoding the
encoding returns exactly `b`; for non-canonical `b` the decode returns
`b` with its trailing zero bytes removed instead.
-/
theorem bitlist_roundtrip (bits : Bytes) (M : Nat) (hb : isBytes bits)
    (hcanon : bits = [] ∨ bits.getLastD 0 ≠ 0)
    (hM : M = 0 ∨ 8 * bits.length ≤ M) :
    ∃ enc n, encodeBitList bits M = .ok enc ∧
      decodeBitList enc M = .ok (bits, n) := by
  obtain ⟨enc, henc⟩ := encodeBitList_ok bits M hM
  obtain ⟨n, hdec⟩ := decodeBitList_encodeBitList bits enc M hb hcanon henc
  exact ⟨enc, n, henc, hdec⟩

/-- C3, witness: the bitlist `[0x03]` at maximum 8 bits. -/
theorem bitlist_roundtrip_witness :
    ∃ enc n, encodeBitList [3] 8 = .ok enc ∧
      decodeBitList enc 8 = .ok ([3], n) :=
  bitlist_roundtrip [3] 8 (by decide) (by decide) (by decide)

/-- C2, witness for the amended theorem: two offsets `4, 6` over a
10-byte buffer. -/
theorem decodeContainer_offsets_witness :
    Except.isOk (decodeContainer
        (newDecoder (([4, 6].map le32Bytes).flatten ++ [1, 2]))
        ([4, 6].map fun _ => ContainerElement.variableE (fun _ => Except.ok ()))) =
      offsetsOkB [4, 6] (([4, 6].map le32Bytes).flatten ++ [1, 2]).length :=
  decodeContainer_offsets [4, 6] [1, 2] (by decide)

/-! ## C6 : hash-tree-root of nil pointers -/

/--
C6, amended: the hash-tree-root of a nil pointer to a composite type is
the all-zero 32-byte chunk, for every modelled composite type; this
coincides with the zero-value root only for types whose zero-value root
is itself all-zero, which fails for lists (whose root mixes in the
length).
-/
theorem hashTreeRootM_nil_ptr (t : MTyp) :
    hashTreeRootM (.mvPtr none) t = .ok (List.replicate 32 0) := by
  cases t <;> rfl

set_option maxRecDepth 10000 in
/--
C6, counterexample: for the composite type `List[uint64, 4]`, the
hash-tree-root of a nil pointer is the all-zero chunk, while the
zero value (the empty list) has root
`mix_in_length(merkleize([0;32]), 0) = sha256([0;64])`, which is not
all-zero — so a nil pointer is not treated as the zero-value root.
-/
theorem nil_ptr_root_ne_zero_value_root :
    hashTreeRootM (.mvPtr none) (.mListU64 4) ≠
      hashTreeRootM (.mvListU64 []) (.mListU64 4) := by
  have h1 : hashTreeRootM (.mvPtr none) (.mListU64 4) =
      .ok (List.replicate 32 0) := hashTreeRootM_nil_ptr _
  have h2 : hashTreeRootM (.mvListU64 []) (.mListU64 4) =
      hashTreeRootListU64 [] 4 := by
    simp [hashTreeRootM]
  have h3 : hashTreeRootListU64 [] 4 = .ok (sha256 (List.replicate 64 0)) := by
    rfl
  have h4 : (List.replicate 32 0 : Bytes) ≠ sha256 (List.replicate 64 0) := by
    decide
  intro hEq
  rw [h1, h2, h3] at hEq
  exact h4 ((Except.ok.injEq _ _).mp hEq)

end SSZGo

namespace SSZGo

/-! ## C1 : structural lemmas for the marshal/unmarshal round-trip -/

/-- A field list without variable fields contributes no heap bytes. -/
theorem serHeap_eq_nil (vs : List Val) (fs : List Styp)
    (hnv : anyVariable fs = false) : serHeap vs fs = [] := by
  induction fs generalizing vs with
  | nil => cases vs <;> simp [serHeap]
  | cons f fr ih =>
    cases vs with
    | nil => simp [serHeap]
    | cons v vr =>
      rw [anyVariable] at hnv
      simp only [Bool.or_eq_false_iff] at hnv
      rw [serHeap, if_neg (by rw [hnv.1]; exact fun hc => nomatch hc)]
      rw [List.nil_append]
      exact ih vr hnv.2

mutual

theorem serFixedV_length (v : Val) (f : Styp) (hval : validCanonV v f = true)
    (hfix : isVariable f = false) : (serFixedV v f).length = fixedSizeT f := by
  cases v <;> cases f
  all_goals try (simp only [validCanonV, Bool.false_eq_true] at hval)
  case vBytes.tByteList bs m => exact absurd hfix (by simp [isVariable])
  case vBytes.tBitList bs m => exact absurd hfix (by simp [isVariable])
  case vU64s.tListU64 xs m => exact absurd hfix (by simp [isVariable])
  case vU8.tU8 x => simp [serFixedV, fixedSizeT]
  case vU16.tU16 x => simp [serFixedV, fixedSizeT, le16Bytes]
  case vU32.tU32 x => simp [serFixedV, fixedSizeT, le32Bytes]
  case vU64.tU64 x => simp [serFixedV, fixedSizeT, le64Bytes]
  case vBool.tBool x => simp [serFixedV, fixedSizeT]
  case vBytes.tByteVector bs n =>
    simp only [validCanonV, Bool.and_eq_true, decide_eq_true_eq] at hval
    simp only [serFixedV, fixedSizeT]
    exact hval.1.2
  case vBytes.tBitVector bs n =>
    simp only [validCanonV, Bool.and_eq_true, decide_eq_true_eq] at hval
    obtain ⟨⟨⟨hn, hlen⟩, _⟩, _⟩ := hval
    simp only [serFixedV, fixedSizeT]
    by_cases h8 : n % 8 = 0
    · rw [if_pos h8]
      exact hlen
    · rw [if_neg h8]
      simp only [List.length_append, List.length_dropLast, List.length_cons,
        List.length_nil]
      have h1 : 1 ≤ bs.length := by
        rw [hlen]
        omega
      omega
  case vFields.tContainer ws gs =>
    simp only [validCanonV, Bool.and_eq_true, decide_eq_true_eq] at hval
    obtain ⟨⟨hne, hlt⟩, hflds⟩ := hval
    simp only [isVariable] at hfix
    simp only [serFixedV, fixedSizeT, serFieldsV]
    rw [serHeap_eq_nil ws gs hfix, List.append_nil]
    exact serSlots_length ws gs hflds (sumFixed gs) 0

theorem serSlots_length (vs : List Val) (fs : List Styp)
    (hval : validCanonFields vs fs = true) (tot habs : Nat) :
    (serSlots vs fs tot habs).length = sumFixed fs := by
  cases fs with
  | nil =>
    cases vs with
    | nil => simp [serSlots, sumFixed]
    | cons v vr => simp [validCanonFields] at hval
  | cons f fr =>
    cases vs with
    | nil => simp [validCanonFields] at hval
    | cons v vr =>
      rw [validCanonFields, Bool.and_eq_true] at hval
      rw [serSlots, sumFixed]
      by_cases hv : isVariable f
      · rw [if_pos hv, if_pos hv]
        simp only [List.length_append, le32Bytes, List.length_cons,
          List.length_nil]
        rw [serSlots_length vr fr hval.2]
      · rw [if_neg hv, if_neg hv]
        simp only [List.length_append]
        rw [serFixedV_length v f hval.1 (by simp [hv]),
          serSlots_length vr fr hval.2]

end

mutual

theorem fixedSizeT_pos (v : Val) (f : Styp) (hval : validCanonV v f = true)
    (hfix : isVariable f = false) : 1 ≤ fixedSizeT f := by
  cases v <;> cases f
  all_goals try (simp only [validCanonV, Bool.false_eq_true] at hval)
  case vBytes.tByteList bs m => exact absurd hfix (by simp [isVariable])
  case vBytes.tBitList bs m => exact absurd hfix (by simp [isVariable])
  case vU64s.tListU64 xs m => exact absurd hfix (by simp [isVariable])
  case vU8.tU8 x => simp [fixedSizeT]
  case vU16.tU16 x => simp [fixedSizeT]
  case vU32.tU32 x => simp [fixedSizeT]
  case vU64.tU64 x => simp [fixedSizeT]
  case vBool.tBool x => simp [fixedSizeT]
  case vBytes.tByteVector bs n =>
    simp only [validCanonV, Bool.and_eq_true, decide_eq_true_eq] at hval
    simp only [fixedSizeT]
    omega
  case vBytes.tBitVector bs n =>
    simp only [validCanonV, Bool.and_eq_true, decide_eq_true_eq] at hval
    obtain ⟨⟨⟨hn, hlen⟩, _⟩, _⟩ := hval
    simp only [fixedSizeT]
    omega
  case vFields.tContainer ws gs =>
    simp only [validCanonV, Bool.and_eq_true, decide_eq_true_eq] at hval
    obtain ⟨⟨hne, hlt⟩, hflds⟩ := hval
    simp only [fixedSizeT]
    exact sumFixed_pos ws gs hflds (by simpa using hne)

theorem sumFixed_pos (vs : List Val) (fs : List Styp)
    (hval : validCanonFields vs fs = true) (hne : fs ≠ []) :
    1 ≤ sumFixed fs := by
  cases fs with
  | nil => exact absurd rfl hne
  | cons f fr =>
    cases vs with
    | nil => simp [validCanonFields] at hval
    | cons v vr =>
      rw [validCanonFields, Bool.and_eq_true] at hval
      rw [sumFixed]
      by_cases hv : isVariable f
      · rw [if_pos hv]
        omega
      · rw [if_neg hv]
        have := fixedSizeT_pos v f hval.1 (by simp [hv])
        omega

end

end SSZGo

namespace SSZGo

theorem flattenEnc_append (st ws : List Word) (plus : Nat) :
    flattenEnc (st ++ ws) plus = flattenEnc st plus ++ flattenEnc ws plus := by
  simp [flattenEnc]

theorem flattenEnc_inline_map (xs : List Bytes) (plus : Nat) :
    flattenEnc (xs.map Word.inline) plus = xs.flatten := by
  induction xs with
  | nil => rfl
  | cons x rest ih =>
    simp only [List.map_cons, flattenEnc, List.flatten_cons] at ih ⊢
    rw [show wordEncodeTo plus (Word.inline x) = x from rfl, ih]

theorem le64Flat_length (xs : List Nat) :
    ((xs.map le64Bytes).flatten).length = 8 * xs.length := by
  induction xs with
  | nil => rfl
  | cons x rest ih =>
    simp only [List.map_cons, List.flatten_cons, List.length_append,
      le64Bytes_length, List.length_cons, ih]
    omega

theorem serSlots_habs_irrelevant (vs : List Val) (fs : List Styp)
    (hnv : anyVariable fs = false) (a b a2 b2 : Nat) :
    serSlots vs fs a b = serSlots vs fs a2 b2 := by
  induction fs generalizing vs with
  | nil => cases vs <;> simp [serSlots]
  | cons f fr ih =>
    cases vs with
    | nil => simp [serSlots]
    | cons v vr =>
      rw [anyVariable, Bool.or_eq_false_iff] at hnv
      rw [serSlots, serSlots, if_neg (by rw [hnv.1]; exact fun hc => nomatch hc),
        if_neg (by rw [hnv.1]; exact fun hc => nomatch hc)]
      rw [ih vr hnv.2]

theorem encodeU64_foldl (xs : List Nat) :
    ∀ (par : Option Builder) (st : List Word) (c hz : Nat) (hp : Bytes),
    c < 2 ^ 32 →
    xs.foldl (fun bb x => bb.encodeUint64 x) (Builder.mk par st c hz hp) =
      Builder.mk par (st ++ xs.map (fun x => Word.inline (le64Bytes x)))
        ((c + 8 * xs.length) % 2 ^ 32) hz hp := by
  induction xs with
  | nil =>
    intro par st c hz hp hc
    simp only [List.foldl_nil, List.map_nil, List.append_nil, List.length_nil]
    rw [Nat.mul_zero, Nat.add_zero, Nat.mod_eq_of_lt hc]
  | cons x rest ih =>
    intro par st c hz hp _
    simp only [List.foldl_cons, List.map_cons, List.length_cons]
    rw [show (Builder.mk par st c hz hp).encodeUint64 x =
      Builder.mk par (st ++ [Word.inline (le64Bytes x)])
        ((c + 8) % 2 ^ 32) hz hp from by
      simp [Builder.encodeUint64, Builder.write, le64Bytes_length, le64Bytes]]
    rw [ih _ _ _ _ _ (Nat.mod_lt _ (by norm_num))]
    rw [List.append_assoc]
    simp only [List.singleton_append]
    rw [Nat.mod_add_mod]
    congr 2
    omega

end SSZGo

namespace SSZGo

theorem write_mk (par : Option Builder) (st : List Word) (c hz : Nat)
    (hp xs : Bytes) :
    (Builder.mk par st c hz hp).write xs =
      Builder.mk par (st ++ [Word.inline xs]) ((c + xs.length) % 2 ^ 32) hz hp := rfl

theorem appendHeap_mk (par : Option Builder) (st : List Word) (c hz sz : Nat)
    (hp payload : Bytes) :
    (Builder.mk par st c hz hp).appendHeap sz payload =
      Builder.mk par (st ++ [Word.ptr hz]) ((c + 4) % 2 ^ 32) (hz + sz)
        (hp ++ payload) := rfl

theorem finishBytes_mk (par : Option Builder) (st : List Word) (c hz : Nat)
    (hp : Bytes) :
    (Builder.mk par st c hz hp).finishBytes = flattenEnc st c ++ hp := rfl

theorem exitDynamic_mk (q : Builder) (st : List Word) (c hz : Nat) (hp : Bytes) :
    (Builder.mk (some q) st c hz hp).exitDynamic =
      some (q.appendHeap (hz + c) (flattenEnc st c ++ hp)) := rfl

theorem enterDynamic_mk (par : Option Builder) (st : List Word) (c hz : Nat)
    (hp : Bytes) :
    (Builder.mk par st c hz hp).enterDynamic =
      Builder.mk (some (Builder.mk par st c hz hp)) [] 0 0 [] := rfl

theorem flattenEnc_snoc_inline (st : List Word) (bs : Bytes) (plus : Nat) :
    flattenEnc (st ++ [Word.inline bs]) plus = flattenEnc st plus ++ bs := by
  simp [flattenEnc, wordEncodeTo]

theorem flattenEnc_snoc_ptr (st : List Word) (p plus : Nat) :
    flattenEnc (st ++ [Word.ptr p]) plus =
      flattenEnc st plus ++ le32Bytes (plus + p) := by
  simp [flattenEnc, wordEncodeTo]

theorem encodeBitVector_valid (bs : Bytes) (n : Nat)
    (hlen : bs.length = (n + 7) / 8) :
    encodeBitVector bs n = .ok (if n % 8 = 0 then bs
      else bs.dropLast ++ [bs.getLastD 0 &&& (2 ^ (n % 8) - 1)]) := by
  simp only [encodeBitVector]
  rw [if_neg (by simp [hlen])]
  by_cases h8 : n % 8 = 0
  · rw [if_pos h8, if_pos h8]
  · rw [if_neg h8, if_neg h8]

end SSZGo

namespace SSZGo

mutual

theorem encodeFixedField_spec (v : Val) (f : Styp)
    (hval : validCanonV v f = true) (hfix : isVariable f = false)
    (par : Option Builder) (st : List Word) (c hz : Nat) (hp : Bytes)
    (hc : c < 2 ^ 32) :
    ∃ st2,
      encodeFixedField (Builder.mk par st c hz hp) v f =
        .ok (Builder.mk par st2 ((c + fixedSizeT f) % 2 ^ 32) hz hp) ∧
      ∀ plus, flattenEnc st2 plus = flattenEnc st plus ++ serFixedV v f := by
  cases v <;> cases f
  all_goals try (simp only [validCanonV, Bool.false_eq_true] at hval)
  case vBytes.tByteList bs m => exact absurd hfix (by simp [isVariable])
  case vBytes.tBitList bs m => exact absurd hfix (by simp [isVariable])
  case vU64s.tListU64 xs m => exact absurd hfix (by simp [isVariable])
  case vU8.tU8 x =>
    refine ⟨st ++ [Word.inline [x % 256]], ?_, fun plus => ?_⟩
    · simp only [encodeFixedField, Builder.encodeUint8, write_mk]
      simp [fixedSizeT]
    · rw [flattenEnc_snoc_inline]
      simp [serFixedV]
  case vU16.tU16 x =>
    refine ⟨st ++ [Word.inline (le16Bytes x)], ?_, fun plus => ?_⟩
    · simp only [encodeFixedField, Builder.encodeUint16, write_mk]
      simp [fixedSizeT, le16Bytes]
    · rw [flattenEnc_snoc_inline]
      simp [serFixedV]
  case vU32.tU32 x =>
    refine ⟨st ++ [Word.inline (le32Bytes x)], ?_, fun plus => ?_⟩
    · simp only [encodeFixedField, Builder.encodeUint32, write_mk]
      simp [fixedSizeT, le32Bytes]
    · rw [flattenEnc_snoc_inline]
      simp [serFixedV]
  case vU64.tU64 x =>
    refine ⟨st ++ [Word.inline (le64Bytes x)], ?_, fun plus => ?_⟩
    · simp only [encodeFixedField, Builder.encodeUint64, write_mk]
      simp [fixedSizeT, le64Bytes]
    · rw [flattenEnc_snoc_inline]
      simp [serFixedV]
  case vBool.tBool x =>
    refine ⟨st ++ [Word.inline [if x then 1 else 0]], ?_, fun plus => ?_⟩
    · simp only [encodeFixedField, Builder.encodeBool, write_mk]
      simp [fixedSizeT]
    · rw [flattenEnc_snoc_inline]
      simp [serFixedV]
  case vBytes.tByteVector bs n =>
    simp only [validCanonV, Bool.and_eq_true, decide_eq_true_eq] at hval
    obtain ⟨⟨hn, hlen⟩, _⟩ := hval
    refine ⟨st ++ [Word.inline bs], ?_, fun plus => ?_⟩
    · simp only [encodeFixedField]
      rw [if_neg (by simp [hlen])]
      simp only [Builder.encodeFixed, write_mk]
      simp [fixedSizeT, hlen]
    · rw [flattenEnc_snoc_inline]
      simp [serFixedV]
  case vBytes.tBitVector bs n =>
    simp only [validCanonV, Bool.and_eq_true, decide_eq_true_eq] at hval
    obtain ⟨⟨⟨hn, hlen⟩, _⟩, _⟩ := hval
    have h1 : 1 ≤ bs.length := by rw [hlen]; omega
    refine ⟨st ++ [Word.inline (serFixedV (.vBytes bs) (.tBitVector n))], ?_,
      fun plus => by rw [flattenEnc_snoc_inline]⟩
    simp only [encodeFixedField]
    rw [if_neg (by simp [hlen]), encodeBitVector_valid bs n hlen]
    simp only [serFixedV, Builder.encodeFixed, write_mk]
    have hlenif : (if n % 8 = 0 then bs
        else bs.dropLast ++ [bs.getLastD 0 &&& (2 ^ (n % 8) - 1)]).length =
        fixedSizeT (.tBitVector n) := by
      by_cases h8 : n % 8 = 0
      · rw [if_pos h8]
        simp [fixedSizeT, hlen]
      · rw [if_neg h8]
        simp only [fixedSizeT, List.length_append, List.length_dropLast,
          List.length_cons, List.length_nil]
        omega
    rw [hlenif]
  case vFields.tContainer ws gs =>
    simp only [validCanonV, Bool.and_eq_true, decide_eq_true_eq] at hval
    obtain ⟨⟨hne, hlt⟩, hflds⟩ := hval
    simp only [isVariable] at hfix
    obtain ⟨st2, heq, hprop⟩ :=
      encodeStructFields_spec ws gs hflds par st c hz hp hc
    refine ⟨st2, ?_, fun plus => ?_⟩
    · simp only [encodeFixedField]
      rw [heq, serHeap_eq_nil ws gs hfix]
      simp [fixedSizeT]
    · rw [hprop plus]
      simp only [serFixedV, serFieldsV]
      rw [serHeap_eq_nil ws gs hfix, List.append_nil,
        serSlots_habs_irrelevant ws gs hfix plus hz (sumFixed gs) 0]

theorem encodeVariableField_spec (v : Val) (f : Styp)
    (hval : validCanonV v f = true) (hvar : isVariable f = true)
    (par : Option Builder) (st : List Word) (c hz : Nat) (hp : Bytes) :
    encodeVariableField (Builder.mk par st c hz hp) v f =
      .ok (Builder.mk par (st ++ [Word.ptr hz]) ((c + 4) % 2 ^ 32)
        (hz + (serVarPayload v f).length) (hp ++ serVarPayload v f)) := by
  cases v <;> cases f
  all_goals try (simp only [validCanonV, Bool.false_eq_true] at hval)
  case vU8.tU8 x => exact absurd hvar (by simp [isVariable])
  case vU16.tU16 x => exact absurd hvar (by simp [isVariable])
  case vU32.tU32 x => exact absurd hvar (by simp [isVariable])
  case vU64.tU64 x => exact absurd hvar (by simp [isVariable])
  case vBool.tBool x => exact absurd hvar (by simp [isVariable])
  case vBytes.tByteVector bs n => exact absurd hvar (by simp [isVariable])
  case vBytes.tBitVector bs n => exact absurd hvar (by simp [isVariable])
  case vBytes.tByteList bs m =>
    simp only [validCanonV, Bool.and_eq_true, Bool.or_eq_true,
      decide_eq_true_eq] at hval
    obtain ⟨_, hm⟩ := hval
    simp only [encodeVariableField]
    rw [if_neg (by rintro ⟨hm1, hm2⟩; rcases hm with h | h <;> omega)]
    simp only [Builder.encodeBytesB, appendHeap_mk, serVarPayload]
  case vBytes.tBitList bs m =>
    simp only [validCanonV, Bool.and_eq_true, Bool.or_eq_true,
      decide_eq_true_eq] at hval
    obtain ⟨⟨_, _⟩, hm⟩ := hval
    obtain ⟨enc, henc⟩ := encodeBitList_ok bs m (by omega)
    simp only [encodeVariableField, serVarPayload]
    rw [if_neg (by rintro ⟨hm1, hm2⟩; rcases hm with h | h <;> omega), henc]
    simp only [Builder.encodeBytesB, appendHeap_mk]
  case vU64s.tListU64 xs m =>
    simp only [validCanonV, Bool.and_eq_true, Bool.or_eq_true,
      decide_eq_true_eq] at hval
    obtain ⟨⟨hall, hm⟩, h32⟩ := hval
    simp only [encodeVariableField]
    rw [if_neg (by rintro ⟨hm1, hm2⟩; rcases hm with h | h <;> omega)]
    rw [enterDynamic_mk, encodeU64_foldl xs _ [] 0 0 [] (by norm_num)]
    rw [show ([] : List Word) ++ xs.map (fun x => Word.inline (le64Bytes x)) =
      (xs.map le64Bytes).map Word.inline from by simp [List.map_map]]
    rw [exitDynamic_mk, flattenEnc_inline_map]
    simp only [appendHeap_mk, serVarPayload, List.append_nil, Nat.zero_add,
      Nat.mod_eq_of_lt h32, le64Flat_length]
  case vFields.tContainer ws gs =>
    simp only [validCanonV, Bool.and_eq_true, decide_eq_true_eq] at hval
    obtain ⟨⟨hne, hlt⟩, hflds⟩ := hval
    obtain ⟨st2, heq, hprop⟩ :=
      encodeStructFields_spec ws gs hflds (some (Builder.mk par st c hz hp))
        [] 0 0 [] (by norm_num)
    simp only [encodeVariableField]
    rw [enterDynamic_mk, heq, bindOk]
    simp only [Nat.zero_add, Nat.mod_eq_of_lt hlt, List.nil_append]
    rw [exitDynamic_mk, hprop (sumFixed gs)]
    rw [show flattenEnc [] (sumFixed gs) = [] from rfl, List.nil_append]
    simp only [appendHeap_mk, serVarPayload, serFieldsV]
    rw [show ((Except.ok (Builder.mk par (st ++ [Word.ptr hz]) ((c + 4) % 2 ^ 32)
      (hz + ((serHeap ws gs).length + sumFixed gs))
      (hp ++ (serSlots ws gs (sumFixed gs) 0 ++ serHeap ws gs)))) :
        Except String Builder) =
      .ok (Builder.mk par (st ++ [Word.ptr hz]) ((c + 4) % 2 ^ 32)
        (hz + (serSlots ws gs (sumFixed gs) 0 ++ serHeap ws gs).length)
        (hp ++ (serSlots ws gs (sumFixed gs) 0 ++ serHeap ws gs))) from by
      rw [List.length_append, serSlots_length ws gs hflds,
        Nat.add_comm (List.length (serHeap ws gs)) (sumFixed gs)]]

theorem encodeStructFields_spec (vs : List Val) (fs : List Styp)
    (hval : validCanonFields vs fs = true)
    (par : Option Builder) (st : List Word) (c hz : Nat) (hp : Bytes)
    (hc : c < 2 ^ 32) :
    ∃ st2,
      encodeStructFields (Builder.mk par st c hz hp) vs fs =
        .ok (Builder.mk par st2 ((c + sumFixed fs) % 2 ^ 32)
          (hz + (serHeap vs fs).length) (hp ++ serHeap vs fs)) ∧
      ∀ plus, flattenEnc st2 plus = flattenEnc st plus ++ serSlots vs fs plus hz := by
  cases fs with
  | nil =>
    cases vs with
    | nil =>
      refine ⟨st, ?_, fun plus => by simp [serSlots]⟩
      simp only [encodeStructFields, sumFixed, serHeap]
      rw [Nat.add_zero, Nat.mod_eq_of_lt hc]
      simp
    | cons v vr => simp [validCanonFields] at hval
  | cons f fr =>
    cases vs with
    | nil => simp [validCanonFields] at hval
    | cons v vr =>
      rw [validCanonFields, Bool.and_eq_true] at hval
      by_cases hv : isVariable f
      · have henc := encodeVariableField_spec v f hval.1 hv par st c hz hp
        obtain ⟨st3, heq3, hprop3⟩ :=
          encodeStructFields_spec vr fr hval.2 par (st ++ [Word.ptr hz])
            ((c + 4) % 2 ^ 32) (hz + (serVarPayload v f).length)
            (hp ++ serVarPayload v f) (Nat.mod_lt _ (by norm_num))
        refine ⟨st3, ?_, fun plus => ?_⟩
        · simp only [encodeStructFields]
          rw [if_pos hv, henc, bindOk, heq3]
          simp only [sumFixed, serHeap, if_pos hv, List.length_append,
            Nat.mod_add_mod, List.append_assoc]
          rw [show (c + 4 + sumFixed fr) = (c + (4 + sumFixed fr)) from by omega,
            show hz + (serVarPayload v f).length + (serHeap vr fr).length =
              hz + ((serVarPayload v f).length + (serHeap vr fr).length) from by
              omega]
        · rw [hprop3 plus, flattenEnc_snoc_ptr]
          simp only [serSlots, if_pos hv, List.append_assoc]
      · have hfix : isVariable f = false := by simp [hv]
        obtain ⟨st2, heq2, hprop2⟩ :=
          encodeFixedField_spec v f hval.1 hfix par st c hz hp hc
        obtain ⟨st3, heq3, hprop3⟩ :=
          encodeStructFields_spec vr fr hval.2 par st2
            ((c + fixedSizeT f) % 2 ^ 32) hz hp (Nat.mod_lt _ (by norm_num))
        refine ⟨st3, ?_, fun plus => ?_⟩
        · simp only [encodeStructFields]
          rw [if_neg (by simp [hv]), heq2, bindOk, heq3]
          simp only [sumFixed, serHeap, if_neg hv, List.length_append,
            Nat.mod_add_mod, List.nil_append]
          rw [show (c + fixedSizeT f + sumFixed fr) =
            (c + (fixedSizeT f + sumFixed fr)) from by omega]
        · rw [hprop3 plus, hprop2 plus]
          simp only [serSlots, if_neg hv, List.append_assoc]

end

end SSZGo

namespace SSZGo

theorem marshal_eq_ser (vs : List Val) (fs : List Styp)
    (hval : validCanonV (.vFields vs) (.tContainer fs) = true) :
    marshal (.vFields vs) (.tContainer fs) = .ok (serFieldsV vs fs) := by
  simp only [validCanonV, Bool.and_eq_true, decide_eq_true_eq] at hval
  obtain ⟨⟨hne, hlt⟩, hflds⟩ := hval
  obtain ⟨st2, heq, hprop⟩ :=
    encodeStructFields_spec vs fs hflds none [] 0 0 [] (by norm_num)
  simp only [marshal]
  rw [show newBuilder = Builder.mk none [] 0 0 [] from rfl, heq, bindOk]
  simp only [finishBytes_mk, Nat.zero_add, Nat.mod_eq_of_lt hlt]
  rw [hprop (sumFixed fs)]
  rw [show flattenEnc [] (sumFixed fs) = [] from rfl, List.nil_append,
    List.nil_append]
  rw [serFieldsV]

end SSZGo

namespace SSZGo

theorem read_at_cursor (xs mid post : Bytes) (cur : Nat)
    (hdrop : xs.drop cur = mid ++ post) (hcur : cur ≤ xs.length)
    (h : 0 < mid.length + post.length) :
    (Decoder.mk xs cur).read mid.length =
      Except.ok (mid, ⟨xs, cur + mid.length⟩) := by
  obtain ⟨pre, h1, h2⟩ : ∃ pre : Bytes, xs = pre ++ (mid ++ post) ∧
      pre.length = cur :=
    ⟨xs.take cur, by rw [← hdrop, List.take_append_drop],
     by simp only [List.length_take]; omega⟩
  subst h1
  rw [← h2]
  exact read_exact pre mid post h

theorem readAll_newDecoder (bs : Bytes) :
    (newDecoder bs).readAll = .ok (bs, ⟨bs, bs.length⟩) := by
  cases bs with
  | nil => rfl
  | cons b rest =>
    rw [Decoder.readAll]
    have hrem : (newDecoder (b :: rest)).remaining = b :: rest := rfl
    rw [hrem]
    rw [if_neg (by simp)]
    have := read_at_cursor (b :: rest) (b :: rest) [] 0 (by simp) (by simp)
      (by simp)
    simpa using this

theorem readUint64_at (buf post : Bytes) (cur x : Nat)
    (hdrop : buf.drop cur = le64Bytes x ++ post) (hcur : cur ≤ buf.length)
    (hx : x < 2 ^ 64) :
    (Decoder.mk buf cur).readUint64 = .ok (x, ⟨buf, cur + 8⟩) := by
  have hread := read_at_cursor buf (le64Bytes x) post cur hdrop hcur
    (by simp [le64Bytes_length])
  rw [le64Bytes_length] at hread
  rw [Decoder.readUint64, hread, bindOk]
  dsimp only
  rw [pureOk, leNum_le64Bytes, Nat.mod_eq_of_lt hx]

theorem readUint32_at (buf post : Bytes) (cur w : Nat)
    (hdrop : buf.drop cur = le32Bytes w ++ post) (hcur : cur ≤ buf.length)
    (hw : w < 2 ^ 32) :
    (Decoder.mk buf cur).readUint32 = .ok (w, ⟨buf, cur + 4⟩) := by
  have hread := read_at_cursor buf (le32Bytes w) post cur hdrop hcur
    (by simp [le32Bytes])
  rw [le32Bytes_length] at hread
  rw [Decoder.readUint32, hread, bindOk]
  dsimp only
  rw [pureOk, leNum_le32Bytes, Nat.mod_eq_of_lt hw]

theorem readU64Loop_spec (xs : List Nat) (hall : ∀ x ∈ xs, x < 2 ^ 64)
    (buf post : Bytes) (cur : Nat)
    (hdrop : buf.drop cur = (xs.map le64Bytes).flatten ++ post)
    (hcur : cur ≤ buf.length) :
    readU64Loop (Decoder.mk buf cur) xs.length =
      .ok (xs, ⟨buf, cur + 8 * xs.length⟩) := by
  induction xs generalizing cur with
  | nil =>
    simp only [List.length_nil, Nat.mul_zero, Nat.add_zero]
    rw [readU64Loop]
  | cons x rest ih =>
    have hdrop1 : buf.drop cur =
        le64Bytes x ++ ((rest.map le64Bytes).flatten ++ post) := by
      rw [hdrop]
      simp [List.append_assoc]
    have h64 := readUint64_at buf _ cur x hdrop1 hcur (hall x (by simp))
    have hcur8 : cur + 8 ≤ buf.length := by
      have hd := congrArg List.length hdrop1
      rw [List.length_drop] at hd
      simp only [List.length_append, le64Bytes_length] at hd
      omega
    have hdrop2 : buf.drop (cur + 8) = (rest.map le64Bytes).flatten ++ post := by
      have hdd : (buf.drop cur).drop 8 = buf.drop (cur + 8) := by
        rw [List.drop_drop, Nat.add_comm]
      rw [← hdd, hdrop1, ← le64Bytes_length x, List.drop_left]
    simp only [List.length_cons]
    rw [readU64Loop, h64, bindOk]
    dsimp only
    rw [ih (fun y hy => hall y (by simp [hy])) (cur + 8) hdrop2 hcur8, bindOk]
    dsimp only
    rw [show cur + 8 + 8 * rest.length = cur + 8 * (rest.length + 1) from by
      omega]

theorem skipToNext_spec (fr : List Styp) (vr : List Val)
    (hval : validCanonFields vr fr = true)
    (buf post : Bytes) (cur tot habs : Nat)
    (hdrop : buf.drop cur = serSlots vr fr tot habs ++ post)
    (hcur : cur ≤ buf.length)
    (hlt : tot + habs < 2 ^ 32) :
    skipToNextVarOffset (Decoder.mk buf cur) fr =
      .ok (if anyVariable fr then some (tot + habs) else none) := by
  induction fr generalizing vr cur habs with
  | nil =>
    cases vr with
    | nil => simp [skipToNextVarOffset, anyVariable]
    | cons v vr2 => simp [validCanonFields] at hval
  | cons f fr2 ih =>
    cases vr with
    | nil => simp [validCanonFields] at hval
    | cons v vr2 =>
      rw [validCanonFields, Bool.and_eq_true] at hval
      rw [skipToNextVarOffset]
      by_cases hv : isVariable f
      · rw [if_pos hv]
        have hdrop1 : buf.drop cur = le32Bytes (tot + habs) ++
            (serSlots vr2 fr2 tot (habs + (serVarPayload v f).length) ++
              post) := by
          rw [hdrop]
          simp only [serSlots, if_pos hv, List.append_assoc]
        rw [readUint32_at buf _ cur (tot + habs) hdrop1 hcur hlt, bindOk]
        dsimp only
        rw [if_pos (show anyVariable (f :: fr2) = true from by
          simp [anyVariable, hv])]
      · rw [if_neg hv]
        have hfix : isVariable f = false := by simp [hv]
        have hlenf : (serFixedV v f).length = fixedSizeT f :=
          serFixedV_length v f hval.1 hfix
        have hpos : 1 ≤ fixedSizeT f := fixedSizeT_pos v f hval.1 hfix
        have hdrop1 : buf.drop cur = serFixedV v f ++
            (serSlots vr2 fr2 tot habs ++ post) := by
          rw [hdrop]
          simp only [serSlots, if_neg hv, List.append_assoc]
        have hread := read_at_cursor buf (serFixedV v f)
          (serSlots vr2 fr2 tot habs ++ post) cur hdrop1 hcur
          (by rw [hlenf]; omega)
        have hreadN : (Decoder.mk buf cur).readN (fixedSizeT f) =
            Except.ok (serFixedV v f, ⟨buf, cur + fixedSizeT f⟩) := by
          rw [Decoder.readN, ← hlenf]
          exact hread
        have hcurf : cur + fixedSizeT f ≤ buf.length := by
          have hd := congrArg List.length hdrop1
          rw [List.length_drop] at hd
          simp only [List.length_append, hlenf] at hd
          omega
        have hdrop2 : buf.drop (cur + fixedSizeT f) =
            serSlots vr2 fr2 tot habs ++ post := by
          have hdd : (buf.drop cur).drop (fixedSizeT f) =
              buf.drop (cur + fixedSizeT f) := by
            rw [List.drop_drop, Nat.add_comm]
          rw [← hdd, hdrop1, ← hlenf, List.drop_left]
        rw [hreadN, bindOk]
        dsimp only
        rw [ih vr2 hval.2 (cur + fixedSizeT f) habs hdrop2 hcurf hlt]
        simp [anyVariable, hfix]

set_option maxRecDepth 10000 in
theorem land_mask_clear (a k : Nat) (ha : a < 256) (hk : k < 8) :
    ((a &&& (255 ^^^ (2 ^ k - 1)) = 0) → (a &&& (2 ^ k - 1) = a)) ∧
    ((a &&& (2 ^ k - 1)) &&& (255 ^^^ (2 ^ k - 1)) = 0) := by
  have h : ∀ (x : Fin 256) (j : Fin 8),
      ((x.val &&& (255 ^^^ (2 ^ j.val - 1)) = 0) →
        (x.val &&& (2 ^ j.val - 1) = x.val)) ∧
      ((x.val &&& (2 ^ j.val - 1)) &&& (255 ^^^ (2 ^ j.val - 1)) = 0) := by
    decide
  exact h ⟨a, ha⟩ ⟨k, hk⟩

end SSZGo

namespace SSZGo

theorem readUint8_at (buf post : Bytes) (cur b : Nat)
    (hdrop : buf.drop cur = [b] ++ post) (hcur : cur ≤ buf.length) :
    (Decoder.mk buf cur).readUint8 = .ok (b, ⟨buf, cur + 1⟩) := by
  have hread := read_at_cursor buf [b] post cur hdrop hcur (by simp)
  rw [show ([b] : Bytes).length = 1 from rfl] at hread
  rw [Decoder.readUint8, hread, bindOk]
  dsimp only
  rw [pureOk]
  simp [leNum]

theorem readUint16_at (buf post : Bytes) (cur x : Nat)
    (hdrop : buf.drop cur = le16Bytes x ++ post) (hcur : cur ≤ buf.length)
    (hx : x < 2 ^ 16) :
    (Decoder.mk buf cur).readUint16 = .ok (x, ⟨buf, cur + 2⟩) := by
  have hread := read_at_cursor buf (le16Bytes x) post cur hdrop hcur
    (by simp [le16Bytes])
  rw [show (le16Bytes x).length = 2 from rfl] at hread
  rw [Decoder.readUint16, hread, bindOk]
  dsimp only
  rw [pureOk, leNum_le16Bytes, Nat.mod_eq_of_lt hx]

theorem readBool_at (buf post : Bytes) (cur : Nat) (x : Bool)
    (hdrop : buf.drop cur = [if x then 1 else 0] ++ post)
    (hcur : cur ≤ buf.length) :
    (Decoder.mk buf cur).readBool = .ok (x, ⟨buf, cur + 1⟩) := by
  have hread := read_at_cursor buf [if x then 1 else 0] post cur hdrop hcur
    (by simp)
  rw [show ([if x then 1 else 0] : Bytes).length = 1 from rfl] at hread
  rw [Decoder.readBool, hread, bindOk]
  dsimp only
  rw [pureOk]
  cases x <;> simp

theorem serFixed_bitVector_canon (bs : Bytes) (n : Nat)
    (hval : validCanonV (.vBytes bs) (.tBitVector n) = true) :
    serFixedV (.vBytes bs) (.tBitVector n) = bs := by
  simp only [validCanonV, Bool.and_eq_true, Bool.or_eq_true, decide_eq_true_eq,
    List.all_eq_true] at hval
  obtain ⟨⟨⟨hn, hlen⟩, hall⟩, hok⟩ := hval
  simp only [serFixedV]
  by_cases h8 : n % 8 = 0
  · rw [if_pos h8]
  · rw [if_neg h8]
    have hlast : bs.getLastD 0 &&& (255 ^^^ (2 ^ (n % 8) - 1)) = 0 := by
      rcases hok with h | h
      · exact absurd h h8
      · exact h
    have hne : bs ≠ [] := by
      intro hcontra
      rw [hcontra] at hlen
      simp at hlen
      omega
    have hmem : bs.getLastD 0 ∈ bs := by
      rw [getLastD_eq_getLast bs hne]
      exact List.getLast_mem hne
    have ha : bs.getLastD 0 < 256 := hall _ hmem
    have hmask := (land_mask_clear (bs.getLastD 0) (n % 8) ha
      (Nat.mod_lt n (by norm_num))).1 hlast
    rw [hmask, getLastD_eq_getLast bs hne, List.dropLast_append_getLast hne]

theorem decodeBitVector_canon (bs : Bytes) (n : Nat)
    (hval : validCanonV (.vBytes bs) (.tBitVector n) = true) :
    decodeBitVector bs n = .ok bs := by
  simp only [validCanonV, Bool.and_eq_true, Bool.or_eq_true, decide_eq_true_eq,
    List.all_eq_true] at hval
  obtain ⟨⟨⟨hn, hlen⟩, hall⟩, hok⟩ := hval
  simp only [decodeBitVector]
  rw [if_neg (by simp [hlen])]
  rw [if_neg ?hcheck]
  case hcheck =>
    rintro ⟨h1, h2⟩
    rcases hok with h | h
    · exact h1 h
    · exact h2 h

end SSZGo

namespace SSZGo

mutual

theorem decodeFixedField_spec (v : Val) (f : Styp)
    (hval : validCanonV v f = true) (hfix : isVariable f = false)
    (buf post : Bytes) (cur : Nat)
    (hdrop : buf.drop cur = serFixedV v f ++ post)
    (hcur : cur ≤ buf.length) :
    decodeFixedField (Decoder.mk buf cur) f =
      .ok (v, ⟨buf, cur + fixedSizeT f⟩) := by
  cases v <;> cases f
  all_goals try (simp only [validCanonV, Bool.false_eq_true] at hval)
  case vBytes.tByteList bs m => exact absurd hfix (by simp [isVariable])
  case vBytes.tBitList bs m => exact absurd hfix (by simp [isVariable])
  case vU64s.tListU64 xs m => exact absurd hfix (by simp [isVariable])
  case vU8.tU8 x =>
    simp only [validCanonV, decide_eq_true_eq] at hval
    simp only [serFixedV] at hdrop
    rw [decodeFixedField, readUint8_at buf post cur (x % 256) hdrop hcur, bindOk]
    dsimp only
    rw [Nat.mod_eq_of_lt (show x < 256 from by omega)]
    simp [fixedSizeT]
  case vU16.tU16 x =>
    simp only [validCanonV, decide_eq_true_eq] at hval
    simp only [serFixedV] at hdrop
    rw [decodeFixedField, readUint16_at buf post cur x hdrop hcur hval, bindOk]
    dsimp only
    simp [fixedSizeT]
  case vU32.tU32 x =>
    simp only [validCanonV, decide_eq_true_eq] at hval
    simp only [serFixedV] at hdrop
    rw [decodeFixedField, readUint32_at buf post cur x hdrop hcur hval, bindOk]
    dsimp only
    simp [fixedSizeT]
  case vU64.tU64 x =>
    simp only [validCanonV, decide_eq_true_eq] at hval
    simp only [serFixedV] at hdrop
    rw [decodeFixedField, readUint64_at buf post cur x hdrop hcur hval, bindOk]
    dsimp only
    simp [fixedSizeT]
  case vBool.tBool x =>
    simp only [serFixedV] at hdrop
    rw [decodeFixedField, readBool_at buf post cur x hdrop hcur, bindOk]
    dsimp only
    simp [fixedSizeT]
  case vBytes.tByteVector bs n =>
    simp only [validCanonV, Bool.and_eq_true, decide_eq_true_eq,
      List.all_eq_true] at hval
    obtain ⟨⟨hn, hlen⟩, hall⟩ := hval
    simp only [serFixedV] at hdrop
    have hread := read_at_cursor buf bs post cur hdrop hcur (by omega)
    have hreadN : (Decoder.mk buf cur).readN n = .ok (bs, ⟨buf, cur + n⟩) := by
      rw [Decoder.readN, ← hlen]
      exact hread
    rw [decodeFixedField, hreadN, bindOk]
    dsimp only
    simp [fixedSizeT]
  case vBytes.tBitVector bs n =>
    have hser := serFixed_bitVector_canon bs n hval
    have hdec := decodeBitVector_canon bs n hval
    simp only [validCanonV, Bool.and_eq_true, Bool.or_eq_true,
      decide_eq_true_eq, List.all_eq_true] at hval
    obtain ⟨⟨⟨hn, hlen⟩, hall⟩, hok⟩ := hval
    rw [hser] at hdrop
    have hread := read_at_cursor buf bs post cur hdrop hcur (by omega)
    have hreadN : (Decoder.mk buf cur).readN ((n + 7) / 8) =
        .ok (bs, ⟨buf, cur + (n + 7) / 8⟩) := by
      rw [Decoder.readN, ← hlen]
      exact hread
    rw [decodeFixedField, hreadN, bindOk]
    dsimp only
    rw [hdec]
    dsimp only
    simp [fixedSizeT]
  case vFields.tContainer ws gs =>
    simp only [validCanonV, Bool.and_eq_true, decide_eq_true_eq] at hval
    obtain ⟨⟨hne, hlt⟩, hflds⟩ := hval
    simp only [isVariable] at hfix
    have hgs : gs ≠ [] := by
      intro hcontra
      rw [hcontra] at hne
      simp at hne
    have hsum := sumFixed_pos ws gs hflds hgs
    have hslotlen := serSlots_length ws gs hflds (sumFixed gs) 0
    have hser : serFixedV (.vFields ws) (.tContainer gs) =
        serSlots ws gs (sumFixed gs) 0 := by
      simp only [serFixedV, serFieldsV]
      rw [serHeap_eq_nil ws gs hfix, List.append_nil]
    rw [hser] at hdrop
    have hread := read_at_cursor buf (serSlots ws gs (sumFixed gs) 0) post cur
      hdrop hcur (by rw [hslotlen]; omega)
    have hreadN : (Decoder.mk buf cur).readN (sumFixed gs) =
        .ok (serSlots ws gs (sumFixed gs) 0, ⟨buf, cur + sumFixed gs⟩) := by
      rw [hslotlen] at hread
      rw [Decoder.readN]
      exact hread
    rw [decodeFixedField, hreadN, bindOk]
    dsimp only
    rw [show newDecoder (serSlots ws gs (sumFixed gs) 0) =
      Decoder.mk (serSlots ws gs (sumFixed gs) 0) 0 from rfl]
    rw [decodeFieldsLoop_fixed ws gs hflds hfix
      (serSlots ws gs (sumFixed gs) 0) [] 0 (sumFixed gs) 0
      (by simp) (by omega) buf.length ⟨buf, cur + sumFixed gs⟩, bindOk]
    dsimp only
    simp [fixedSizeT]

theorem decodeVariableField_spec (v : Val) (f : Styp)
    (hval : validCanonV v f = true) (hvar : isVariable f = true)
    (hplen : (serVarPayload v f).length < 2 ^ 32) :
    decodeVariableField (newDecoder (serVarPayload v f)) f = .ok v := by
  cases v <;> cases f
  all_goals try (simp only [validCanonV, Bool.false_eq_true] at hval)
  case vU8.tU8 x => exact absurd hvar (by simp [isVariable])
  case vU16.tU16 x => exact absurd hvar (by simp [isVariable])
  case vU32.tU32 x => exact absurd hvar (by simp [isVariable])
  case vU64.tU64 x => exact absurd hvar (by simp [isVariable])
  case vBool.tBool x => exact absurd hvar (by simp [isVariable])
  case vBytes.tByteVector bs n => exact absurd hvar (by simp [isVariable])
  case vBytes.tBitVector bs n => exact absurd hvar (by simp [isVariable])
  case vBytes.tByteList bs m =>
    simp only [validCanonV, Bool.and_eq_true, Bool.or_eq_true,
      decide_eq_true_eq, List.all_eq_true] at hval
    obtain ⟨hall, hm⟩ := hval
    simp only [serVarPayload]
    rw [decodeVariableField, readAll_newDecoder, bindOk]
    dsimp only
    rw [if_neg (by rintro ⟨hm1, hm2⟩; rcases hm with h | h <;> omega)]
  case vBytes.tBitList bs m =>
    simp only [validCanonV, Bool.and_eq_true, Bool.or_eq_true,
      decide_eq_true_eq, List.all_eq_true] at hval
    obtain ⟨⟨hall, hcanon⟩, hm⟩ := hval
    obtain ⟨enc, henc⟩ := encodeBitList_ok bs m hm
    have hser : serVarPayload (.vBytes bs) (.tBitList m) = enc := by
      simp only [serVarPayload, henc]
    rw [hser, decodeVariableField, readAll_newDecoder, bindOk]
    dsimp only
    obtain ⟨nn, hdec⟩ := decodeBitList_encodeBitList bs enc m
      (fun b hb => hall b hb) hcanon henc
    rw [hdec]
  case vU64s.tListU64 xs m =>
    simp only [validCanonV, Bool.and_eq_true, Bool.or_eq_true,
      decide_eq_true_eq, List.all_eq_true] at hval
    obtain ⟨⟨hall, hm⟩, h32⟩ := hval
    simp only [serVarPayload]
    rw [decodeVariableField]
    dsimp only [newDecoder, Decoder.remaining, List.drop_zero]
    rw [le64Flat_length]
    rw [if_neg (by simp [Nat.mul_mod_right])]
    rw [show 8 * xs.length / 8 = xs.length from by omega]
    rw [if_neg (by rintro ⟨hm1, hm2⟩; rcases hm with h | h <;> omega)]
    rw [readU64Loop_spec xs hall ((xs.map le64Bytes).flatten) [] 0
      (by simp) (by omega), bindOk]
  case vFields.tContainer ws gs =>
    simp only [validCanonV, Bool.and_eq_true, decide_eq_true_eq] at hval
    obtain ⟨⟨hne, hlt⟩, hflds⟩ := hval
    have hgs : gs ≠ [] := by
      intro hcontra
      rw [hcontra] at hne
      simp at hne
    have hsum := sumFixed_pos ws gs hflds hgs
    have hslotlen := serSlots_length ws gs hflds (sumFixed gs) 0
    simp only [serVarPayload, serFieldsV] at hplen ⊢
    rw [show newDecoder (serSlots ws gs (sumFixed gs) 0 ++ serHeap ws gs) =
      Decoder.mk (serSlots ws gs (sumFixed gs) 0 ++ serHeap ws gs) 0 from rfl]
    have hread := read_at_cursor
      (serSlots ws gs (sumFixed gs) 0 ++ serHeap ws gs)
      (serSlots ws gs (sumFixed gs) 0) (serHeap ws gs) 0 (by simp)
      (by omega) (by rw [hslotlen]; omega)
    have hreadN : (Decoder.mk
        (serSlots ws gs (sumFixed gs) 0 ++ serHeap ws gs) 0).readN
          (sumFixed gs) =
        .ok (serSlots ws gs (sumFixed gs) 0,
          ⟨serSlots ws gs (sumFixed gs) 0 ++ serHeap ws gs, sumFixed gs⟩) := by
      rw [hslotlen] at hread
      rw [Nat.zero_add] at hread
      rw [Decoder.readN]
      exact hread
    rw [decodeVariableField, hreadN, bindOk]
    dsimp only
    have hloop := decodeFieldsLoop_gen ws gs hflds
      (serSlots ws gs (sumFixed gs) 0) [] 0 (sumFixed gs) 0
      (serSlots ws gs (sumFixed gs) 0 ++ serHeap ws gs)
      (by simp) (by omega)
      (by
        rw [Nat.add_zero]
        have h := List.drop_left (serSlots ws gs (sumFixed gs) 0)
          (serHeap ws gs)
        rw [hslotlen] at h
        exact h)
      (by rw [Nat.add_zero]; simp only [List.length_append]; omega)
      (by simpa [List.length_append, hslotlen] using hplen)
    rw [Nat.add_zero] at hloop
    rw [show newDecoder (serSlots ws gs (sumFixed gs) 0) =
      Decoder.mk (serSlots ws gs (sumFixed gs) 0) 0 from rfl]
    rw [hloop, bindOk]

theorem decodeFieldsLoop_fixed (ws : List Val) (gs : List Styp)
    (hval : validCanonFields ws gs = true) (hnv : anyVariable gs = false)
    (fbuf fpost : Bytes) (fcur tot habs : Nat)
    (hfdrop : fbuf.drop fcur = serSlots ws gs tot habs ++ fpost)
    (hfcur : fcur ≤ fbuf.length) (L : Nat) (d : Decoder) :
    decodeFieldsLoop L (Decoder.mk fbuf fcur) d gs =
      .ok (ws, ⟨fbuf, fcur + sumFixed gs⟩, d) := by
  cases gs with
  | nil =>
    cases ws with
    | nil =>
      rw [decodeFieldsLoop]
      simp [sumFixed]
    | cons v vr => simp [validCanonFields] at hval
  | cons f fr =>
    cases ws with
    | nil => simp [validCanonFields] at hval
    | cons v vr =>
      rw [validCanonFields, Bool.and_eq_true] at hval
      rw [anyVariable, Bool.or_eq_false_iff] at hnv
      have hfix1 : isVariable f = false := hnv.1
      have hnv2 : ¬ isVariable f = true := by simp [hfix1]
      have hlenf := serFixedV_length v f hval.1 hfix1
      have hfdrop1 : fbuf.drop fcur =
          serFixedV v f ++ (serSlots vr fr tot habs ++ fpost) := by
        rw [hfdrop]
        simp only [serSlots, if_neg hnv2, List.append_assoc]
      have hfcurf : fcur + fixedSizeT f ≤ fbuf.length := by
        have h := congrArg List.length hfdrop1
        rw [List.length_drop] at h
        simp only [List.length_append, hlenf] at h
        omega
      have hfdrop2 : fbuf.drop (fcur + fixedSizeT f) =
          serSlots vr fr tot habs ++ fpost := by
        have hdd : (fbuf.drop fcur).drop (fixedSizeT f) =
            fbuf.drop (fcur + fixedSizeT f) := by
          rw [List.drop_drop, Nat.add_comm]
        rw [← hdd, hfdrop1, ← hlenf, List.drop_left]
      rw [decodeFieldsLoop, if_neg hnv2]
      rw [decodeFixedField_spec v f hval.1 hfix1 fbuf
        (serSlots vr fr tot habs ++ fpost) fcur hfdrop1 hfcur, bindOk]
      dsimp only
      rw [decodeFieldsLoop_fixed vr fr hval.2 hnv.2 fbuf fpost
        (fcur + fixedSizeT f) tot habs hfdrop2 hfcurf L d, bindOk]
      dsimp only
      rw [show fcur + fixedSizeT f + sumFixed fr = fcur + sumFixed (f :: fr)
        from by rw [sumFixed, if_neg hnv2]; omega]

theorem decodeFieldsLoop_gen (vr : List Val) (fr : List Styp)
    (hval : validCanonFields vr fr = true)
    (fbuf fpost : Bytes) (fcur tot habs : Nat) (xs : Bytes)
    (hfdrop : fbuf.drop fcur = serSlots vr fr tot habs ++ fpost)
    (hfcur : fcur ≤ fbuf.length)
    (hdrop : xs.drop (tot + habs) = serHeap vr fr)
    (hcur : tot + habs ≤ xs.length)
    (hlen : xs.length < 2 ^ 32) :
    decodeFieldsLoop xs.length (Decoder.mk fbuf fcur)
        (Decoder.mk xs (tot + habs)) fr =
      .ok (vr, ⟨fbuf, fcur + sumFixed fr⟩, ⟨xs, xs.length⟩) := by
  cases fr with
  | nil =>
    cases vr with
    | nil =>
      have h0 : xs.drop (tot + habs) = [] := by
        rw [hdrop]
        simp [serHeap]
      have hL : xs.length = tot + habs := by
        have h := congrArg List.length h0
        rw [List.length_drop] at h
        simp only [List.length_nil] at h
        omega
      rw [decodeFieldsLoop]
      simp only [sumFixed, Nat.add_zero]
      rw [hL]
    | cons v vr2 => simp [validCanonFields] at hval
  | cons f fr2 =>
    cases vr with
    | nil => simp [validCanonFields] at hval
    | cons v vr2 =>
      rw [validCanonFields, Bool.and_eq_true] at hval
      by_cases hv : isVariable f
      · have hheap : serHeap (v :: vr2) (f :: fr2) =
            serVarPayload v f ++ serHeap vr2 fr2 := by
          simp only [serHeap, if_pos hv]
        rw [hheap] at hdrop
        have hxslen : xs.length = tot + habs +
            ((serVarPayload v f).length + (serHeap vr2 fr2).length) := by
          have h := congrArg List.length hdrop
          rw [List.length_drop] at h
          simp only [List.length_append] at h
          omega
        have hplenlt : (serVarPayload v f).length < 2 ^ 32 := by omega
        have hfdrop1 : fbuf.drop fcur = le32Bytes (tot + habs) ++
            (serSlots vr2 fr2 tot (habs + (serVarPayload v f).length) ++
              fpost) := by
          rw [hfdrop]
          simp only [serSlots, if_pos hv, List.append_assoc]
        have hfcur4 : fcur + 4 ≤ fbuf.length := by
          have h := congrArg List.length hfdrop1
          rw [List.length_drop] at h
          simp only [List.length_append, le32Bytes_length] at h
          omega
        have hfdrop2 : fbuf.drop (fcur + 4) =
            serSlots vr2 fr2 tot (habs + (serVarPayload v f).length) ++
              fpost := by
          have hdd : (fbuf.drop fcur).drop 4 = fbuf.drop (fcur + 4) := by
            rw [List.drop_drop, Nat.add_comm]
          rw [← hdd, hfdrop1,
            show (4 : Nat) = (le32Bytes (tot + habs)).length from rfl,
            List.drop_left]
        have hdrop3 : xs.drop (tot + (habs + (serVarPayload v f).length)) =
            serHeap vr2 fr2 := by
          have hdd : (xs.drop (tot + habs)).drop (serVarPayload v f).length =
              xs.drop (tot + (habs + (serVarPayload v f).length)) := by
            rw [List.drop_drop]
            congr 1
            omega
          rw [← hdd, hdrop, List.drop_left]
        have hrec := decodeFieldsLoop_gen vr2 fr2 hval.2 fbuf fpost (fcur + 4)
          tot (habs + (serVarPayload v f).length) xs hfdrop2 hfcur4 hdrop3
          (by omega) hlen
        rw [show tot + (habs + (serVarPayload v f).length) =
          tot + habs + (serVarPayload v f).length from by omega] at hrec
        have hdvf := decodeVariableField_spec v f hval.1 hv hplenlt
        rw [decodeFieldsLoop, if_pos hv]
        rw [readUint32_at fbuf _ fcur (tot + habs) hfdrop1 hfcur (by omega),
          bindOk]
        dsimp only
        rw [skipToNext_spec fr2 vr2 hval.2 fbuf fpost (fcur + 4) tot
          (habs + (serVarPayload v f).length) hfdrop2 hfcur4 (by omega),
          bindOk]
        by_cases hany : anyVariable fr2
        · rw [if_pos hany]
          dsimp only
          rw [show (tot + (habs + (serVarPayload v f).length) + 2 ^ 32 -
            (tot + habs)) % 2 ^ 32 = (serVarPayload v f).length from by omega]
          rcases Nat.eq_zero_or_pos (serVarPayload v f).length with hp0 | hppos
          · rw [if_neg (by simp [hp0])]
            rw [bindOk]
            dsimp only
            have hpay : serVarPayload v f = [] := List.length_eq_zero.mp hp0
            have hdvf2 := hdvf
            rw [hpay] at hdvf2
            rw [hdvf2, bindOk]
            rw [show tot + habs = tot + habs + (serVarPayload v f).length
              from by rw [hpay]; simp]
            rw [hrec, bindOk]
            dsimp only
            rw [show fcur + 4 + sumFixed fr2 = fcur + sumFixed (f :: fr2)
              from by rw [sumFixed, if_pos hv]; omega]
          · rw [if_pos (by exact_mod_cast hppos)]
            rw [show (((serVarPayload v f).length : Nat) : Int).toNat =
              (serVarPayload v f).length from by simp]
            have hreadP := read_at_cursor xs (serVarPayload v f)
              (serHeap vr2 fr2) (tot + habs) hdrop hcur (by omega)
            have hreadN2 : (Decoder.mk xs (tot + habs)).readN
                (serVarPayload v f).length =
                .ok (serVarPayload v f,
                  ⟨xs, tot + habs + (serVarPayload v f).length⟩) := by
              rw [Decoder.readN]
              exact hreadP
            rw [hreadN2, bindOk]
            dsimp only
            rw [hdvf, bindOk]
            rw [hrec, bindOk]
            dsimp only
            rw [show fcur + 4 + sumFixed fr2 = fcur + sumFixed (f :: fr2)
              from by rw [sumFixed, if_pos hv]; omega]
        · rw [if_neg hany]
          dsimp only
          have hanyf : anyVariable fr2 = false := Bool.eq_false_iff.mpr hany
          have hnil := serHeap_eq_nil vr2 fr2 hanyf
          have h0 : (serHeap vr2 fr2).length = 0 := by rw [hnil]; rfl
          rw [show (xs.length : Int) - ((tot + habs : Nat) : Int) =
            (((serVarPayload v f).length : Nat) : Int) from by omega]
          rcases Nat.eq_zero_or_pos (serVarPayload v f).length with hp0 | hppos
          · rw [if_neg (by simp [hp0])]
            rw [bindOk]
            dsimp only
            have hpay : serVarPayload v f = [] := List.length_eq_zero.mp hp0
            have hdvf2 := hdvf
            rw [hpay] at hdvf2
            rw [hdvf2, bindOk]
            rw [show tot + habs = tot + habs + (serVarPayload v f).length
              from by rw [hpay]; simp]
            rw [hrec, bindOk]
            dsimp only
            rw [show fcur + 4 + sumFixed fr2 = fcur + sumFixed (f :: fr2)
              from by rw [sumFixed, if_pos hv]; omega]
          · rw [if_pos (by exact_mod_cast hppos)]
            rw [show (((serVarPayload v f).length : Nat) : Int).toNat =
              (serVarPayload v f).length from by simp]
            have hreadP := read_at_cursor xs (serVarPayload v f)
              (serHeap vr2 fr2) (tot + habs) hdrop hcur (by omega)
            have hreadN2 : (Decoder.mk xs (tot + habs)).readN
                (serVarPayload v f).length =
                .ok (serVarPayload v f,
                  ⟨xs, tot + habs + (serVarPayload v f).length⟩) := by
              rw [Decoder.readN]
              exact hreadP
            rw [hreadN2, bindOk]
            dsimp only
            rw [hdvf, bindOk]
            rw [hrec, bindOk]
            dsimp only
            rw [show fcur + 4 + sumFixed fr2 = fcur + sumFixed (f :: fr2)
              from by rw [sumFixed, if_pos hv]; omega]
      · have hfix1 : isVariable f = false := by simp [hv]
        have hheap : serHeap (v :: vr2) (f :: fr2) = serHeap vr2 fr2 := by
          simp only [serHeap, if_neg hv, List.nil_append]
        rw [hheap] at hdrop
        have hlenf := serFixedV_length v f hval.1 hfix1
        have hfdrop1 : fbuf.drop fcur =
            serFixedV v f ++ (serSlots vr2 fr2 tot habs ++ fpost) := by
          rw [hfdrop]
          simp only [serSlots, if_neg hv, List.append_assoc]
        have hfcurf : fcur + fixedSizeT f ≤ fbuf.length := by
          have h := congrArg List.length hfdrop1
          rw [List.length_drop] at h
          simp only [List.length_append, hlenf] at h
          omega
        have hfdrop2 : fbuf.drop (fcur + fixedSizeT f) =
            serSlots vr2 fr2 tot habs ++ fpost := by
          have hdd : (fbuf.drop fcur).drop (fixedSizeT f) =
              fbuf.drop (fcur + fixedSizeT f) := by
            rw [List.drop_drop, Nat.add_comm]
          rw [← hdd, hfdrop1, ← hlenf, List.drop_left]
        rw [decodeFieldsLoop, if_neg hv]
        rw [decodeFixedField_spec v f hval.1 hfix1 fbuf
          (serSlots vr2 fr2 tot habs ++ fpost) fcur hfdrop1 hfcur, bindOk]
        dsimp only
        rw [decodeFieldsLoop_gen vr2 fr2 hval.2 fbuf fpost
          (fcur + fixedSizeT f) tot habs xs hfdrop2 hfcurf hdrop hcur hlen,
          bindOk]
        dsimp only
        rw [show fcur + fixedSizeT f + sumFixed fr2 = fcur + sumFixed (f :: fr2)
          from by rw [sumFixed, if_neg hv]; omega]

end

end SSZGo

namespace SSZGo

theorem decodeStructTop_inverts (vs : List Val) (fs : List Styp)
    (hval : validCanonV (.vFields vs) (.tContainer fs) = true)
    (hlen : (serFieldsV vs fs).length < 2 ^ 32) :
    decodeStructTop (serFieldsV vs fs) fs = .ok (.vFields vs) := by
  simp only [validCanonV, Bool.and_eq_true, decide_eq_true_eq] at hval
  obtain ⟨⟨hne, hlt⟩, hflds⟩ := hval
  have hgs : fs ≠ [] := by
    intro hcontra
    rw [hcontra] at hne
    simp at hne
  have hsum := sumFixed_pos vs fs hflds hgs
  have hslotlen := serSlots_length vs fs hflds (sumFixed fs) 0
  simp only [serFieldsV] at hlen ⊢
  rw [decodeStructTop, decodeStructFromDecoder]
  rw [show newDecoder (serSlots vs fs (sumFixed fs) 0 ++ serHeap vs fs) =
    Decoder.mk (serSlots vs fs (sumFixed fs) 0 ++ serHeap vs fs) 0 from rfl]
  have hread := read_at_cursor
    (serSlots vs fs (sumFixed fs) 0 ++ serHeap vs fs)
    (serSlots vs fs (sumFixed fs) 0) (serHeap vs fs) 0 (by simp)
    (by omega) (by rw [hslotlen]; omega)
  have hreadN : (Decoder.mk
      (serSlots vs fs (sumFixed fs) 0 ++ serHeap vs fs) 0).readN
        (sumFixed fs) =
      .ok (serSlots vs fs (sumFixed fs) 0,
        ⟨serSlots vs fs (sumFixed fs) 0 ++ serHeap vs fs, sumFixed fs⟩) := by
    rw [hslotlen] at hread
    rw [Nat.zero_add] at hread
    rw [Decoder.readN]
    exact hread
  rw [hreadN, bindOk]
  dsimp only
  have hloop := decodeFieldsLoop_gen vs fs hflds
    (serSlots vs fs (sumFixed fs) 0) [] 0 (sumFixed fs) 0
    (serSlots vs fs (sumFixed fs) 0 ++ serHeap vs fs)
    (by simp) (by omega)
    (by
      rw [Nat.add_zero]
      have h := List.drop_left (serSlots vs fs (sumFixed fs) 0)
        (serHeap vs fs)
      rw [hslotlen] at h
      exact h)
    (by rw [Nat.add_zero]; simp only [List.length_append]; omega)
    (by simpa [List.length_append, hslotlen] using hlen)
  rw [Nat.add_zero] at hloop
  rw [show newDecoder (serSlots vs fs (sumFixed fs) 0) =
    Decoder.mk (serSlots vs fs (sumFixed fs) 0) 0 from rfl]
  rw [hloop, bindOk]
  dsimp only
  rw [bindOk]

/--
C1, counterexample: the claim states that unmarshalling the marshalled
bytes of every value of a valid SSZ struct type returns the value
exactly; but a struct whose bit-list field holds the non-canonical
slice `[0x00]` marshals to an encoding whose bit-list payload drops the
trailing zero byte (`EncodeBitList` infers the length from the highest
set bit), so decoding returns the empty slice instead of `[0x00]`.
-/
theorem struct_roundtrip_fails_on_noncanonical_bitlist :
    marshal (Val.vFields [Val.vBytes [0]]) (Styp.tContainer [Styp.tBitList 8]) =
      .ok [4, 0, 0, 0, 1] ∧
    decodeStructTop [4, 0, 0, 0, 1] [Styp.tBitList 8] =
      .ok (Val.vFields [Val.vBytes []]) ∧
    Val.vFields [Val.vBytes []] ≠ Val.vFields [Val.vBytes [0]] := by
  refine ⟨rfl, rfl, ?_⟩
  intro h
  simp at h

/--
C1, amended: for every canonical well-typed value of a valid SSZ struct
type — scalar fields in range, byte vectors of exact declared size, bit
vectors with their spare high bits clear, bit lists empty or ending in
a non-zero byte, list fields within their declared limits, containers
non-empty with fixed part below `2^32` — whose serialization is shorter
than `2^32` bytes, `Marshal` succeeds and `DecodeStruct` of the
produced bytes returns exactly the original value.
-/
theorem struct_roundtrip (vs : List Val) (fs : List Styp)
    (hval : validCanonV (.vFields vs) (.tContainer fs) = true)
    (hlen : (serFieldsV vs fs).length < 2 ^ 32) :
    ∃ bs, marshal (.vFields vs) (.tContainer fs) = .ok bs ∧
      decodeStructTop bs fs = .ok (.vFields vs) :=
  ⟨serFieldsV vs fs, marshal_eq_ser vs fs hval,
   decodeStructTop_inverts vs fs hval hlen⟩

/--
C1, witness: the amended round-trip theorem applied to a concrete
two-field struct (a `uint8` field holding 7 and an 8-bit bit-list field
holding `[0x03]`).
-/
theorem struct_roundtrip_witness :
    validCanonV (Val.vFields [Val.vU8 7, Val.vBytes [3]])
      (Styp.tContainer [Styp.tU8, Styp.tBitList 8]) = true ∧
    (serFieldsV [Val.vU8 7, Val.vBytes [3]]
      [Styp.tU8, Styp.tBitList 8]).length < 2 ^ 32 ∧
    ∃ bs, marshal (Val.vFields [Val.vU8 7, Val.vBytes [3]])
        (Styp.tContainer [Styp.tU8, Styp.tBitList 8]) = .ok bs ∧
      decodeStructTop bs [Styp.tU8, Styp.tBitList 8] =
        .ok (Val.vFields [Val.vU8 7, Val.vBytes [3]]) := by
  have hser : serFieldsV [Val.vU8 7, Val.vBytes [3]]
      [Styp.tU8, Styp.tBitList 8] = [7, 5, 0, 0, 0, 7] := by
    simp [serFieldsV, serSlots, serHeap, serVarPayload, serFixedV, sumFixed,
      fixedSizeT, isVariable, le32Bytes,
      show encodeBitList [3] 8 = Except.ok [7] from rfl]
  refine ⟨by decide, by rw [hser]; decide,
    struct_roundtrip [Val.vU8 7, Val.vBytes [3]] [Styp.tU8, Styp.tBitList 8]
      (by decide) (by rw [hser]; decide)⟩

end SSZGo
